import Mathlib

/-!
# The token-to-expert router of the MoE visualizer

A shallow embedding of `src/deepseek/js/moe.js` (class `MoEVisualizer`):
`simpleHash`, `getSemanticExperts`, `shuffleArray`, `selectExpertsForToken`,
`setExpertCount` and the animation (`processTokens`, `animate`), of the
tokenizer of `src/main.js` and of `toggleLike` of
`src/tech_ireland_v2/js/main.js`, followed by their properties.

Conventions of the embedding:

* a JavaScript string is the list of its UTF-16 code units;
* a JavaScript number that holds a non-negative integer is a `Nat`, a signed
  one an `Int`; the results of `*` and `+` are rounded to the nearest double
  (`roundToDouble`), `>>> 0` is `toUint32`, `<<` and `&` go through `toInt32`;
* an array read `a[i]` is `a[i]?`; a read outside the array (JavaScript's
  `undefined`) makes the enclosing function return `none`;
* a `Set` is the list of its elements in insertion order (`setAdd`);
* `String.prototype.toLowerCase` is a built-in of the host, not code of the
  repository: the functions that call it take it as the parameter `toLowerCase`.
-/

namespace MoE

/-! ## Strings and numbers -/

/-- A JavaScript string, as the list of its UTF-16 code units. -/
abbrev JSString := List Nat

/-- UTF-16 code units of one character. -/
def utf16Char (c : Char) : List Nat :=
  if c.toNat < 65536 then [c.toNat]
  else [55296 + (c.toNat - 65536) / 1024, 56320 + (c.toNat - 65536) % 1024]

/-- The JavaScript string written as the literal `s`. -/
def js (s : String) : JSString :=
  s.toList.flatMap utf16Char

/-- ToInt32: the signed 32-bit integer congruent to `x` modulo `2^32`. -/
def toInt32 (x : Int) : Int :=
  if x % 4294967296 < 2147483648 then x % 4294967296 else x % 4294967296 - 4294967296

/-- ToUint32 of a non-negative integer (`x >>> 0`). -/
def toUint32 (x : Nat) : Nat :=
  x % 4294967296

/-- Number of binary digits of `n`, computed with `fuel` halvings at most. -/
def bitLengthAux : Nat → Nat → Nat
  | 0, _ => 0
  | fuel + 1, n => if n = 0 then 0 else bitLengthAux fuel (n / 2) + 1

/-- Number of binary digits of `n`. -/
def bitLength (n : Nat) : Nat :=
  bitLengthAux n n

/-- The double nearest to the non-negative integer `n` (IEEE 754 binary64,
round to nearest, ties to even): `n` itself when it has at most 53 binary
digits, otherwise `n` rounded to a multiple of `2^(bitLength n - 53)`.
The result of a JavaScript `*` or `+` on integer-valued doubles `a`, `b` is
`roundToDouble (a * b)`, respectively `roundToDouble (a + b)`
(for magnitudes below `2^1024`). -/
def roundToDouble (n : Nat) : Nat :=
  if bitLength n ≤ 53 then n
  else
    let sh := bitLength n - 53
    let q := n / 2 ^ sh
    let r := n % 2 ^ sh
    let half := 2 ^ (sh - 1)
    if r < half then q * 2 ^ sh
    else if half < r then (q + 1) * 2 ^ sh
    else if q % 2 = 0 then q * 2 ^ sh
    else (q + 1) * 2 ^ sh

/-- The body of the loop of `simpleHash`, from the running value `hash`:
`hash = ((hash << 5) - hash + str.charCodeAt(i)) & 0xffffffff`. -/
def simpleHashLoop : Int → JSString → Int
  | hash, [] => hash
  | hash, c :: rest => simpleHashLoop (toInt32 (toInt32 (hash * 32) - hash + (c : Int))) rest

/-- The method `simpleHash(str)`: the loop from `hash = 0`, then `Math.abs`. -/
def simpleHash (str : JSString) : Nat :=
  (simpleHashLoop 0 str).natAbs

/-! ## The visualizer -/

/-- A token, as built by the tokenizer: `{text, id, embedding, position}`.
The embedding is a list of numbers that the visualizer never reads. -/
structure Token where
  text : JSString
  id : Nat
  embedding : List Rat
  position : Nat

/-- The fields of a `MoEVisualizer` that the routing and the animation use
(the drawing context, the canvas and the colours are left out). -/
structure MoEVisualizer where
  EXPERT_COUNT : Int
  ROUTED_EXPERTS_COUNT : Nat
  SHARED_EXPERT_INDEX : Nat
  FRAMES_PER_TOKEN : Nat
  MAX_DISPLAYED_TOKENS : Nat
  selectedExperts : List Nat
  tokens : List Token
  animationFrame : Nat
  currentTokenIndex : Nat
  isAnimating : Bool

/-- The state set up by the constructor. -/
def MoEVisualizer.constructed : MoEVisualizer where
  EXPERT_COUNT := 32
  ROUTED_EXPERTS_COUNT := 8
  SHARED_EXPERT_INDEX := 0
  FRAMES_PER_TOKEN := 32
  MAX_DISPLAYED_TOKENS := 21
  selectedExperts := []
  tokens := []
  animationFrame := 0
  currentTokenIndex := 0
  isAnimating := false

/-- The keys of `this.expertTypes`. -/
inductive ExpertType where
  | math
  | language
  | vision
  | logic
  | code
  | memory
  | audio
  | reasoning
  deriving DecidableEq, Repr

/-- The table `this.expertTypes`, assigned once by the constructor. -/
def expertTypes : ExpertType → List Nat
  | .math => [8, 16, 24]
  | .language => [1, 9, 17, 25]
  | .vision => [2, 10, 18, 26]
  | .logic => [3, 11, 19, 27]
  | .code => [4, 12, 20, 28]
  | .memory => [5, 13, 21, 29]
  | .audio => [6, 14, 22, 30]
  | .reasoning => [7, 15, 23, 31]

/-- The value of `Object.keys(this.expertTypes)`: the keys in insertion order. -/
def allTypes : List ExpertType :=
  [.math, .language, .vision, .logic, .code, .memory, .audio, .reasoning]

/-! ## Regular expressions of `getSemanticExperts` -/

/-- Whether `word` occurs in `s` starting at its first code unit. -/
def startsWith : JSString → JSString → Bool
  | _, [] => true
  | [], _ :: _ => false
  | c :: s, w :: word => c == w && startsWith s word

/-- Whether `word` occurs somewhere in `s`: the unanchored test of a literal. -/
def includesWord : JSString → JSString → Bool
  | [], word => startsWith [] word
  | c :: s, word => startsWith (c :: s) word || includesWord s word

/-- Whether `s` has a decimal digit: the unanchored test of `\d+`. -/
def hasDigit (s : JSString) : Bool :=
  s.any fun c => decide (48 ≤ c ∧ c ≤ 57)

/-- The unanchored test of an alternation of literal words. -/
def testWords (words : List String) (s : JSString) : Bool :=
  words.any fun w => includesWord s (js w)

/-- The test `/\d+|number|count|calculate|math|sum|add/.test(s)`. -/
def mathRule (s : JSString) : Bool :=
  hasDigit s || testWords ["number", "count", "calculate", "math", "sum", "add"] s

/-- The test `/color|see|look|visual|image|picture/.test(s)`. -/
def visionRule (s : JSString) : Bool :=
  testWords ["color", "see", "look", "visual", "image", "picture"] s

/-- The test `/think|because|why|reason|logic/.test(s)`. -/
def reasoningRule (s : JSString) : Bool :=
  testWords ["think", "because", "why", "reason", "logic"] s

/-- The test `/code|program|function|debug|script/.test(s)`. -/
def codeRule (s : JSString) : Bool :=
  testWords ["code", "program", "function", "debug", "script"] s

/-- The test `/the|a|an|is|are|was|were|and|or/.test(s)`. -/
def languageRule (s : JSString) : Bool :=
  testWords ["the", "a", "an", "is", "are", "was", "were", "and", "or"] s

/-- The `if`/`else if` chain of `getSemanticExperts` that sets `primaryType`
(`none` is JavaScript's `null`). -/
def primaryType (toLowerCase : JSString → JSString) (text : JSString) : Option ExpertType :=
  let lowerText := toLowerCase text
  if mathRule lowerText then some .math
  else if visionRule lowerText then some .vision
  else if reasoningRule lowerText then some .reasoning
  else if codeRule lowerText then some .code
  else if languageRule lowerText then some .language
  else none

/-! ## `getSemanticExperts` -/

/-- One turn of the loop over the primary type: reads
`typeExperts[(hash + i) % typeExperts.length]` and pushes it unless it is the
shared expert. -/
def primaryStep (this : MoEVisualizer) (typeExperts : List Nat) (hash : Nat)
    (experts : List Nat) (i : Nat) : Option (List Nat) :=
  match typeExperts[(hash + i) % typeExperts.length]? with
  | none => none
  | some expertIndex =>
    if expertIndex ≠ this.SHARED_EXPERT_INDEX then some (experts ++ [expertIndex])
    else some experts

/-- One turn of the loop over the secondary types, guarded by the loop
condition `experts.length < 5`. -/
def secondaryStep (this : MoEVisualizer) (secondaryTypes : List ExpertType) (hash : Nat)
    (experts : List Nat) (i : Nat) : Option (List Nat) :=
  if experts.length < 5 then
    match secondaryTypes[(hash + i) % secondaryTypes.length]? with
    | none => none
    | some secondaryType =>
      match (expertTypes secondaryType)[(hash + i + 7) % (expertTypes secondaryType).length]? with
      | none => none
      | some expertIndex =>
        if expertIndex ≠ this.SHARED_EXPERT_INDEX ∧ ¬ expertIndex ∈ experts then
          some (experts ++ [expertIndex])
        else some experts
  else some experts

/-- The array `secondaryTypes`: `allTypes.filter(type => type !== primaryType)`. -/
def secondaryTypes (primary : Option ExpertType) : List ExpertType :=
  allTypes.filter fun type => decide (some type ≠ primary)

/-- The experts pushed for the primary type: none when `primaryType` is `null`. -/
def primaryExperts (this : MoEVisualizer) (hash : Nat) : Option ExpertType → Option (List Nat)
  | none => some []
  | some p =>
    (List.range (min 3 (expertTypes p).length)).foldlM
      (primaryStep this (expertTypes p) hash) []

/-- The method `getSemanticExperts(text)`. -/
def getSemanticExperts (toLowerCase : JSString → JSString) (this : MoEVisualizer)
    (text : JSString) : Option (List Nat) :=
  let hash := simpleHash text
  let primary := primaryType toLowerCase text
  match primaryExperts this hash primary with
  | none => none
  | some experts =>
    (List.range 2).foldlM (secondaryStep this (secondaryTypes primary) hash) experts

/-! ## `shuffleArray` -/

/-- The swap partner `j = ((seed * (i + 1) * 1103515245 + 12345) >>> 0) % (i + 1)`. -/
def swapPartner (seed i : Nat) : Nat :=
  toUint32 (roundToDouble (roundToDouble (roundToDouble (seed * (i + 1)) * 1103515245) + 12345))
    % (i + 1)

/-- The seed of the next turn: `(seed * 1664525 + 1013904223) >>> 0`. -/
def nextSeed (seed : Nat) : Nat :=
  toUint32 (roundToDouble (roundToDouble (seed * 1664525) + 1013904223))

/-- The assignment `[array[i], array[j]] = [array[j], array[i]]`: both reads
first, then the write at `i`, then the write at `j`. -/
def swap (array : List Nat) (i j : Nat) : Option (List Nat) :=
  match array[j]?, array[i]? with
  | some aj, some ai => some ((array.set i aj).set j ai)
  | _, _ => none

/-- The loop of `shuffleArray`, about to run the turns `i, i - 1, ..., 1`. -/
def shuffleLoop : Nat → List Nat → Nat → Option (List Nat)
  | 0, array, _ => some array
  | i + 1, array, seed =>
    match swap array (i + 1) (swapPartner seed (i + 1)) with
    | none => none
    | some array1 => shuffleLoop i array1 (nextSeed seed)

/-- The method `shuffleArray(array, seed)`; the result is the array after the call. -/
def shuffleArray (array : List Nat) (seed : Nat) : Option (List Nat) :=
  shuffleLoop (array.length - 1) array seed

/-! ## `selectExpertsForToken` -/

/-- The call `set.add(x)` on a `Set` held in insertion order. -/
def setAdd (set : List Nat) (x : Nat) : List Nat :=
  if x ∈ set then set else set ++ [x]

/-- One turn of the first loop of `selectExpertsForToken`. -/
def semanticStep (this : MoEVisualizer) (semanticExperts : List Nat)
    (selectedExperts : List Nat) (i : Nat) : Option (List Nat) :=
  match semanticExperts[i]? with
  | none => none
  | some expert =>
    if expert ≠ this.SHARED_EXPERT_INDEX then some (setAdd selectedExperts expert)
    else some selectedExperts

/-- Step 1 of `selectExpertsForToken`: the loop over the first
`Math.min(3, semanticExperts.length)` semantic experts, from the empty set. -/
def semanticSelection (this : MoEVisualizer) (semanticExperts : List Nat) : Option (List Nat) :=
  (List.range (min 3 semanticExperts.length)).foldlM (semanticStep this semanticExperts) []

/-- One turn of the `for ... of` loop over the shuffled experts; once the set
has `ROUTED_EXPERTS_COUNT` elements the loop has left through `break`. -/
def fillStep (this : MoEVisualizer) (selectedExperts : List Nat) (expert : Nat) : List Nat :=
  if this.ROUTED_EXPERTS_COUNT ≤ selectedExperts.length then selectedExperts
  else if ¬ expert ∈ selectedExperts then setAdd selectedExperts expert
  else selectedExperts

/-- The array `availableExperts` before the shuffle: `1, 2, ..., EXPERT_COUNT - 1`. -/
def availableExperts (this : MoEVisualizer) : List Nat :=
  List.range' 1 (this.EXPERT_COUNT.toNat - 1)

/-- The method `selectExpertsForToken(token)`. -/
def selectExpertsForToken (toLowerCase : JSString → JSString) (this : MoEVisualizer)
    (token : Token) : Option (List Nat) :=
  let hash := simpleHash token.text
  match getSemanticExperts toLowerCase this token.text with
  | none => none
  | some semanticExperts =>
    match semanticSelection this semanticExperts with
    | none => none
    | some selected =>
      match shuffleArray (availableExperts this) hash with
      | none => none
      | some shuffled =>
        some ((shuffled.foldl (fillStep this) selected).take this.ROUTED_EXPERTS_COUNT)

/-! ## `setExpertCount` -/

/-- The method `render()`: it draws on the canvas and assigns no field of the
visualizer. -/
def render (this : MoEVisualizer) : MoEVisualizer :=
  this

/-- The method `setExpertCount(count)`, for an integer `count`:
`this.EXPERT_COUNT = Math.min(count, 32)`, then `this.render()`. -/
def setExpertCount (this : MoEVisualizer) (count : Int) : MoEVisualizer :=
  render { this with EXPERT_COUNT := min count 32 }

/-! ## The animation -/

/-- The method `resetAnimation()`. -/
def resetAnimation (this : MoEVisualizer) : MoEVisualizer :=
  { this with animationFrame := 0, currentTokenIndex := 0, selectedExperts := [],
              isAnimating := false }

/-- What one call of `animate()` leaves: the state, whether the call reached
`this.render()`, and whether it called `requestAnimationFrame` for a next call. -/
structure AnimateResult where
  state : MoEVisualizer
  rendered : Bool
  scheduled : Bool

/-- The assignment of `animate()` to the current token: when `newTokenIndex`
differs from `currentTokenIndex` and is below `tokens.length`, the index is
stored and the routing of `tokens[newTokenIndex]` becomes `selectedExperts`
(`none` when that token is `undefined`). -/
def updateCurrentToken (toLowerCase : JSString → JSString) (this : MoEVisualizer)
    (newTokenIndex : Int) : Option MoEVisualizer :=
  if newTokenIndex ≠ (this.currentTokenIndex : Int) ∧ newTokenIndex < (this.tokens.length : Int) then
    if newTokenIndex < 0 then none
    else
      match this.tokens[newTokenIndex.toNat]? with
      | none => none
      | some token =>
        match selectExpertsForToken toLowerCase
            { this with currentTokenIndex := newTokenIndex.toNat } token with
        | none => none
        | some experts =>
          some { this with currentTokenIndex := newTokenIndex.toNat, selectedExperts := experts }
  else some this

/-- One call of the method `animate()`. `Math.floor(animationFrame /
FRAMES_PER_TOKEN)` is the quotient of the two natural numbers (for a positive
`FRAMES_PER_TOKEN`). -/
def animate (toLowerCase : JSString → JSString) (this : MoEVisualizer) : Option AnimateResult :=
  if this.isAnimating = false then some { state := this, rendered := false, scheduled := false }
  else if this.tokens.length * this.FRAMES_PER_TOKEN + 20 < this.animationFrame then
    some { state := { this with isAnimating := false }, rendered := false, scheduled := false }
  else
    match updateCurrentToken toLowerCase this
        (min ((this.animationFrame / this.FRAMES_PER_TOKEN : Nat) : Int)
          ((this.tokens.length : Int) - 1)) with
    | none => none
    | some this1 =>
      some { state := { render this1 with animationFrame := (render this1).animationFrame + 1 },
             rendered := true,
             scheduled := (render this1).isAnimating }

/-- The method `startAnimation()`, with the call of `animate()` it makes. -/
def startAnimation (toLowerCase : JSString → JSString) (this : MoEVisualizer) :
    Option AnimateResult :=
  if this.tokens.length = 0 then some { state := this, rendered := false, scheduled := false }
  else animate toLowerCase { this with isAnimating := true }

/-- The method `processTokens(tokens)`: the slice, `resetAnimation()` and
`startAnimation()`. -/
def processTokens (toLowerCase : JSString → JSString) (this : MoEVisualizer)
    (tokens : List Token) : Option AnimateResult :=
  startAnimation toLowerCase
    (resetAnimation { this with tokens := tokens.take this.MAX_DISPLAYED_TOKENS })

/-- The next animation frame: the call of `animate()` that the previous call
scheduled, if it scheduled one. -/
def nextFrame (toLowerCase : JSString → JSString) (r : AnimateResult) : Option AnimateResult :=
  if r.scheduled then animate toLowerCase r.state
  else some { state := r.state, rendered := false, scheduled := false }

/-- The result of the last call after `k` further animation frames. -/
def afterFrames (toLowerCase : JSString → JSString) : Nat → AnimateResult → Option AnimateResult
  | 0, r => some r
  | k + 1, r =>
    match afterFrames toLowerCase k r with
    | none => none
    | some r1 => nextFrame toLowerCase r1

/-- The animation started by `processTokens(tokens)`, `k` frames later. -/
def animation (toLowerCase : JSString → JSString) (this : MoEVisualizer) (tokens : List Token)
    (k : Nat) : Option AnimateResult :=
  match processTokens toLowerCase this tokens with
  | none => none
  | some r => afterFrames toLowerCase k r

/-! ## The tokenizer (`src/main.js`) -/

/-- The characters matched by `\s`: white space and line terminators. -/
def isWhiteSpace (c : Nat) : Bool :=
  c == 9 || c == 10 || c == 11 || c == 12 || c == 13 || c == 32 || c == 160 || c == 5760 ||
    (8192 ≤ c && c ≤ 8202) || c == 8232 || c == 8233 || c == 8239 || c == 8287 ||
    c == 12288 || c == 65279

/-- The scan of `text.split(/\s+/)`: `inSeparator` tells whether the previous
character belonged to the separator being matched, `word` is the piece read
so far. A first white-space character closes the piece; the separator
extends over the white-space characters that follow. -/
def splitLoop : Bool → JSString → JSString → List JSString
  | _, word, [] => [word]
  | inSeparator, word, c :: rest =>
    if isWhiteSpace c then
      if inSeparator then splitLoop true word rest
      else word :: splitLoop true [] rest
    else splitLoop false (word ++ [c]) rest

/-- The value of `text.split(/\s+/)`. -/
def splitWhiteSpace (text : JSString) : List JSString :=
  splitLoop false [] text

/-- The `map` of `tokenize`, from the index `idx` on: the word at index `idx`
becomes the token `{text: word, id: idx, embedding, position: idx}`. -/
def tokensFrom (generateRandomEmbedding : Nat → List Rat) : Nat → List JSString → List Token
  | _, [] => []
  | idx, word :: words =>
    { text := word, id := idx, embedding := generateRandomEmbedding idx, position := idx }
      :: tokensFrom generateRandomEmbedding (idx + 1) words

/-- The method `tokenize(text)` of `DeepSeekDemo`. The call of
`generateRandomEmbedding()` made for the word at index `idx` returns
`generateRandomEmbedding idx`. -/
def tokenize (generateRandomEmbedding : Nat → List Rat) (text : JSString) : List Token :=
  tokensFrom generateRandomEmbedding 0
    ((splitWhiteSpace text).filter fun word => decide (0 < word.length))

/-! ## The like button (`src/tech_ireland_v2/js/main.js`) -/

/-- A project, with the two properties `toggleLike` uses: `team` and `likes`
(`none` when the project has no `likes`). -/
structure Project where
  team : JSString
  likes : Option Int

/-- The variables `currentProject` (`none` is `null`) and `likedProjects`, a
`Set` held in insertion order. -/
structure LikeState where
  currentProject : Option Project
  likedProjects : List JSString

/-- The double nearest to the integer `x`. -/
def roundToDoubleInt (x : Int) : Int :=
  if 0 ≤ x then (roundToDouble x.toNat : Int) else -(roundToDouble (-x).toNat : Int)

/-- The expression `currentProject.likes || 0`. -/
def likesOrZero (project : Project) : Int :=
  match project.likes with
  | none => 0
  | some likes => likes

/-- The function `toggleLike()`; the changes to the page and the copy of
`likedProjects` written to the local storage are left out. -/
def toggleLike (s : LikeState) : LikeState :=
  match s.currentProject with
  | none => s
  | some project =>
    if project.team ∈ s.likedProjects then
      { currentProject :=
          some { project with likes := some (max 0 (roundToDoubleInt (likesOrZero project - 1))) }
        likedProjects := s.likedProjects.erase project.team }
    else
      { currentProject :=
          some { project with likes := some (roundToDoubleInt (likesOrZero project + 1)) }
        likedProjects := s.likedProjects ++ [project.team] }

/-- A lower-casing that maps `A`..`Z` to `a`..`z` and keeps every other code
unit: it agrees with `toLowerCase` on strings of ASCII characters. -/
def asciiLower (s : JSString) : JSString :=
  s.map fun c => if 65 ≤ c ∧ c ≤ 90 then c + 32 else c

/-- A token with the given text, as the first token of an input. -/
def tokenOf (text : JSString) : Token :=
  { text := text, id := 0, embedding := [], position := 0 }

/-! ## Definitions used by the statements -/

/-- The polynomial of the specification of `simpleHash`: for the code units
`c_0 .. c_(n-1)`, the sum of `c_i * 31^(n-1-i)`, in exact integer arithmetic. -/
def hashPolynomial : JSString → Int
  | [] => 0
  | c :: rest => (c : Int) * 31 ^ rest.length + hashPolynomial rest

/-- Membership in one of the lists of `expertTypes`. -/
def InTable (x : Nat) : Prop :=
  ∃ t, x ∈ expertTypes t

/-- A state in the middle of an animation, with the constructor's constants. -/
def busyVisualizer : MoEVisualizer :=
  { MoEVisualizer.constructed with
    selectedExperts := [3, 5, 7]
    tokens := [tokenOf (js "math"), tokenOf (js "the")]
    animationFrame := 40
    currentTokenIndex := 1
    isAnimating := true }

/-- The token `math` at position 4 of an input, with an embedding. -/
def mathToken : Token :=
  { text := js "math", id := 4, embedding := [1 / 2, -1 / 3], position := 4 }

/-- The state of the scenario `route("xyz123", 4, 8)`: four experts. -/
def fourExperts : MoEVisualizer :=
  { MoEVisualizer.constructed with EXPERT_COUNT := 4 }

/-- The state of the scenario `route("test", 1, 8)`: a single expert. -/
def oneExpert : MoEVisualizer :=
  { MoEVisualizer.constructed with EXPERT_COUNT := 1 }

/-- The ordered rules of the specification of the classification: each
category with its pattern, in the priority order math, vision, reasoning,
code, language. -/
def classificationRules : List (ExpertType × (JSString → Bool)) :=
  [(.math, mathRule), (.vision, visionRule), (.reasoning, reasoningRule),
    (.code, codeRule), (.language, languageRule)]

/-- The classification in the words of the specification: the category of the
first rule whose pattern matches the lower-cased text, none when no rule
matches. -/
def firstMatch (lowerText : JSString) : Option ExpertType :=
  (classificationRules.find? fun rule => rule.2 lowerText).map Prod.fst

/-- The words of the language rule. -/
def stopWords : List String :=
  ["the", "a", "an", "is", "are", "was", "were", "and", "or"]

/-- The swap partner of the specification of the shuffle:
`((seed * (i + 1) * 1103515245 + 12345) mod 2^32) mod (i + 1)`, the product
and the sum taken in exact integer arithmetic. -/
def exactSwapPartner (seed i : Nat) : Nat :=
  ((seed * (i + 1) * 1103515245 + 12345) % 4294967296) % (i + 1)

/-- The constants of a visualizer hold the values the constructor gave them. -/
def HasConstants (this : MoEVisualizer) : Prop :=
  this.ROUTED_EXPERTS_COUNT = 8 ∧ this.SHARED_EXPERT_INDEX = 0 ∧
    this.FRAMES_PER_TOKEN = 32 ∧ this.MAX_DISPLAYED_TOKENS = 21

/-- The routed list in the words of the specification: the first three
semantic experts, then the shuffled candidates outside them, up to 8 entries
in all. -/
def referenceRoute (semanticExperts shuffled : List Nat) : List Nat :=
  semanticExperts.take 3 ++
    (shuffled.filter fun expert => decide (¬ expert ∈ semanticExperts.take 3)).take
      (8 - (semanticExperts.take 3).length)

/-- The held routing result tracks the current token: it is the routing of
`tokens[currentTokenIndex]`, except that as long as the current token is
the first one nothing has been routed and the held result is empty. -/
def Tracks (toLowerCase : JSString → JSString) (this : MoEVisualizer) : Prop :=
  (this.currentTokenIndex = 0 ∧ this.selectedExperts = []) ∨
    (this.currentTokenIndex ≠ 0 ∧ ∃ token, this.tokens[this.currentTokenIndex]? = some token ∧
      selectExpertsForToken toLowerCase this token = some this.selectedExperts)

/-- The result of the call of `animate()` that renders frame `j` of the
animation of the stored tokens `stored`, started from the state `this`. -/
def Running (toLowerCase : JSString → JSString) (this : MoEVisualizer) (stored : List Token)
    (j : Nat) (r : AnimateResult) : Prop :=
  r.rendered = true ∧ r.scheduled = true ∧ r.state.isAnimating = true ∧
    r.state.animationFrame = j + 1 ∧ r.state.tokens = stored ∧
    r.state.currentTokenIndex = min (j / 32) (stored.length - 1) ∧
    r.state.EXPERT_COUNT = this.EXPERT_COUNT ∧
    r.state.ROUTED_EXPERTS_COUNT = this.ROUTED_EXPERTS_COUNT ∧
    r.state.SHARED_EXPERT_INDEX = this.SHARED_EXPERT_INDEX ∧
    r.state.FRAMES_PER_TOKEN = 32 ∧ r.state.MAX_DISPLAYED_TOKENS = 21 ∧
    Tracks toLowerCase r.state

/-- A list of 22 tokens, one more than `MAX_DISPLAYED_TOKENS`. -/
def twentyTwoTokens : List Token :=
  List.replicate 22 (tokenOf (js "a"))

/-- A project with `2^53` likes, not yet liked by the visitor. -/
def popularProject : LikeState :=
  { currentProject := some { team := js "Team A", likes := some 9007199254740992 }
    likedProjects := [js "Team B"] }

/-! ## Lemmas on the loops -/

/-- A loop whose every turn succeeds and keeps an invariant succeeds and
ends in a state with the invariant. -/
theorem foldlM_some_inv {α β : Type} (f : β → α → Option β) (P : β → Prop) :
    ∀ (l : List α) (b : β), P b →
      (∀ b a, a ∈ l → P b → ∃ b', f b a = some b' ∧ P b') →
      ∃ b', l.foldlM f b = some b' ∧ P b'
  | [], b, hb, _ => ⟨b, rfl, hb⟩
  | a :: l, b, hb, hf => by
    obtain ⟨b1, h1, hb1⟩ := hf b a (List.mem_cons_self a l) hb
    obtain ⟨b2, h2, hb2⟩ := foldlM_some_inv f P l b1 hb1
      (fun b a ha hP => hf b a (List.mem_cons_of_mem _ ha) hP)
    exact ⟨b2, by simp [List.foldlM, h1, h2], hb2⟩

/-- Reading a non-empty array at an index reduced modulo its length succeeds. -/
theorem getElem?_mod_length {α : Type} (l : List α) (k : Nat) (h : 0 < l.length) :
    ∃ x, l[k % l.length]? = some x ∧ x ∈ l := by
  have hlt : k % l.length < l.length := Nat.mod_lt _ h
  exact ⟨l[k % l.length], List.getElem?_eq_getElem hlt, List.getElem_mem hlt⟩

theorem expertTypes_length_pos (t : ExpertType) : 0 < (expertTypes t).length := by
  cases t <;> decide

theorem expertTypes_mem_bounds (t : ExpertType) (x : Nat) (h : x ∈ expertTypes t) :
    1 ≤ x ∧ x ≤ 31 := by
  cases t <;> simp [expertTypes] at h <;> omega

theorem InTable.bounds {x : Nat} (h : InTable x) : 1 ≤ x ∧ x ≤ 31 := by
  obtain ⟨t, ht⟩ := h
  exact expertTypes_mem_bounds t x ht

theorem primaryStep_some (this : MoEVisualizer) (p : ExpertType) (hash : Nat)
    (experts : List Nat) (i : Nat) (hP : ∀ x ∈ experts, InTable x) :
    ∃ b, primaryStep this (expertTypes p) hash experts i = some b ∧ ∀ x ∈ b, InTable x := by
  obtain ⟨x, hx, hmem⟩ := getElem?_mod_length (expertTypes p) (hash + i) (expertTypes_length_pos p)
  unfold primaryStep
  rw [hx]
  by_cases hs : x ≠ this.SHARED_EXPERT_INDEX
  · refine ⟨experts ++ [x], by simp [hs], ?_⟩
    intro y hy
    rcases List.mem_append.mp hy with h | h
    · exact hP y h
    · rw [List.mem_singleton.mp h]; exact ⟨p, hmem⟩
  · exact ⟨experts, by simp [hs], hP⟩

theorem primaryExperts_some (this : MoEVisualizer) (hash : Nat) (primary : Option ExpertType) :
    ∃ b, primaryExperts this hash primary = some b ∧ ∀ x ∈ b, InTable x := by
  cases primary with
  | none => exact ⟨[], rfl, by simp⟩
  | some p =>
    exact foldlM_some_inv _ (fun b => ∀ x ∈ b, InTable x) _ [] (by simp)
      (fun b a _ hP => primaryStep_some this p hash b a hP)

theorem secondaryTypes_length_pos (primary : Option ExpertType) :
    0 < (secondaryTypes primary).length := by
  cases primary with
  | none => decide
  | some p => cases p <;> decide

theorem secondaryStep_some (this : MoEVisualizer) (secondaryTypes : List ExpertType)
    (hpos : 0 < secondaryTypes.length) (hash : Nat)
    (experts : List Nat) (i : Nat) (hP : ∀ x ∈ experts, InTable x) :
    ∃ b, secondaryStep this secondaryTypes hash experts i = some b ∧ ∀ x ∈ b, InTable x := by
  unfold secondaryStep
  by_cases hlen : experts.length < 5
  · obtain ⟨t, ht, _⟩ := getElem?_mod_length secondaryTypes (hash + i) hpos
    obtain ⟨x, hx, hmem⟩ := getElem?_mod_length (expertTypes t) (hash + i + 7)
      (expertTypes_length_pos t)
    simp only [hlen, if_true, ht, hx]
    by_cases hs : x ≠ this.SHARED_EXPERT_INDEX ∧ ¬ x ∈ experts
    · refine ⟨experts ++ [x], by simp [hs], ?_⟩
      intro y hy
      rcases List.mem_append.mp hy with h | h
      · exact hP y h
      · rw [List.mem_singleton.mp h]; exact ⟨t, hmem⟩
    · exact ⟨experts, by rw [if_neg hs], hP⟩
  · exact ⟨experts, by simp [hlen], hP⟩

/-- The method `getSemanticExperts` returns a list, all of whose entries come
from the table `expertTypes`. -/
theorem getSemanticExperts_some (toLowerCase : JSString → JSString) (this : MoEVisualizer)
    (text : JSString) :
    ∃ b, getSemanticExperts toLowerCase this text = some b ∧ ∀ x ∈ b, InTable x := by
  obtain ⟨b1, h1, hb1⟩ := primaryExperts_some this (simpleHash text) (primaryType toLowerCase text)
  obtain ⟨b2, h2, hb2⟩ := foldlM_some_inv
    (secondaryStep this (secondaryTypes (primaryType toLowerCase text)) (simpleHash text))
    (fun b => ∀ x ∈ b, InTable x) (List.range 2) b1 hb1
    (fun b a _ hP => secondaryStep_some this _ (secondaryTypes_length_pos _) _ b a hP)
  refine ⟨b2, ?_, hb2⟩
  simp only [getSemanticExperts, h1]
  exact h2


/-! ## The shuffle -/

theorem swapPartner_le (seed i : Nat) : swapPartner seed i ≤ i := by
  unfold swapPartner
  exact Nat.lt_succ_iff.mp (Nat.mod_lt _ (Nat.succ_pos i))

theorem indicator_le_count (a : List Nat) (i : Nat) (hi : i < a.length) (b : Nat) :
    (if a[i] == b then 1 else 0) ≤ a.count b := by
  split
  · rename_i h
    have hb : a[i] = b := by simpa using h
    exact List.count_pos_iff.mpr (hb ▸ List.getElem_mem hi)
  · exact Nat.zero_le _

/-- Exchanging two entries of a list rearranges it. -/
theorem set_set_perm_self (a : List Nat) (i j : Nat) (hi : i < a.length) (hj : j < a.length) :
    ((a.set i a[j]).set j a[i]).Perm a := by
  rw [List.perm_iff_count]
  intro b
  have hj1 : j < (a.set i a[j]).length := by simpa using hj
  rw [List.count_set _ _ _ _ hj1, List.count_set _ _ _ _ hi]
  have hci := indicator_le_count a i hi b
  have hcj := indicator_le_count a j hj b
  by_cases hij : i = j
  · subst hij
    simp only [List.getElem_set_self]
    omega
  · rw [List.getElem_set_ne hij]
    generalize (if a[i] == b then 1 else 0) = x at hci ⊢
    generalize (if a[j] == b then 1 else 0) = y at hcj ⊢
    omega

/-- The swap of two positions inside the array succeeds and rearranges it. -/
theorem swap_some (a : List Nat) (i j : Nat) (hi : i < a.length) (hj : j < a.length) :
    ∃ b, swap a i j = some b ∧ b.Perm a := by
  refine ⟨(a.set i a[j]).set j a[i], ?_, set_set_perm_self a i j hi hj⟩
  simp [swap, List.getElem?_eq_getElem hi, List.getElem?_eq_getElem hj]

/-- The loop of the shuffle, started inside the array, succeeds and rearranges it. -/
theorem shuffleLoop_some : ∀ (i : Nat) (a : List Nat) (seed : Nat), i < a.length ∨ i = 0 →
    ∃ b, shuffleLoop i a seed = some b ∧ b.Perm a
  | 0, a, _, _ => ⟨a, rfl, List.Perm.refl a⟩
  | i + 1, a, seed, h => by
    have hi : i + 1 < a.length := by omega
    have hj : swapPartner seed (i + 1) < a.length :=
      Nat.lt_of_le_of_lt (swapPartner_le seed (i + 1)) hi
    obtain ⟨a1, h1, hp1⟩ := swap_some a (i + 1) (swapPartner seed (i + 1)) hi hj
    have hlen : i < a1.length ∨ i = 0 := by
      left
      rw [hp1.length_eq]
      omega
    obtain ⟨b, h2, hp2⟩ := shuffleLoop_some i a1 (nextSeed seed) hlen
    exact ⟨b, by simp [shuffleLoop, h1, h2], hp2.trans hp1⟩

/-- The method `shuffleArray` returns, and its result is a rearrangement of the array. -/
theorem shuffleArray_some (a : List Nat) (seed : Nat) :
    ∃ b, shuffleArray a seed = some b ∧ b.Perm a := by
  apply shuffleLoop_some
  omega

/-! ## The routed set -/

theorem setAdd_nodup (s : List Nat) (x : Nat) (h : s.Nodup) : (setAdd s x).Nodup := by
  unfold setAdd
  split
  · exact h
  · rename_i hx
    exact List.Nodup.append h (List.nodup_singleton x) (by simpa using hx)

theorem mem_setAdd (s : List Nat) (x y : Nat) : y ∈ setAdd s x ↔ y ∈ s ∨ y = x := by
  unfold setAdd
  split
  · rename_i hx
    constructor
    · exact Or.inl
    · rintro (h | h)
      · exact h
      · exact h ▸ hx
  · simp

theorem semanticStep_some (this : MoEVisualizer) (semanticExperts : List Nat)
    (sel : List Nat) (i : Nat) (hi : i < semanticExperts.length)
    (hP : sel.Nodup ∧ ∀ x ∈ sel, x ∈ semanticExperts) :
    ∃ b, semanticStep this semanticExperts sel i = some b ∧
      (b.Nodup ∧ ∀ x ∈ b, x ∈ semanticExperts) := by
  unfold semanticStep
  rw [List.getElem?_eq_getElem hi]
  by_cases hs : semanticExperts[i] ≠ this.SHARED_EXPERT_INDEX
  · refine ⟨setAdd sel semanticExperts[i], by simp [hs], setAdd_nodup _ _ hP.1, ?_⟩
    intro y hy
    rcases (mem_setAdd _ _ _).mp hy with h | h
    · exact hP.2 y h
    · exact h ▸ List.getElem_mem hi
  · exact ⟨sel, by simp [hs], hP⟩

/-- The first loop of `selectExpertsForToken` succeeds; the set it leaves is
duplicate-free and drawn from the semantic experts. -/
theorem semanticSelection_some (this : MoEVisualizer) (semanticExperts : List Nat) :
    ∃ b, semanticSelection this semanticExperts = some b ∧
      (b.Nodup ∧ ∀ x ∈ b, x ∈ semanticExperts) := by
  unfold semanticSelection
  refine foldlM_some_inv _ (fun b => b.Nodup ∧ ∀ x ∈ b, x ∈ semanticExperts) _ []
    ⟨List.nodup_nil, by simp⟩ ?_
  intro b a ha hP
  have hlt : a < semanticExperts.length := by
    have := List.mem_range.mp ha
    omega
  exact semanticStep_some this semanticExperts b a hlt hP

theorem fillStep_nodup (this : MoEVisualizer) (s : List Nat) (x : Nat) (h : s.Nodup) :
    (fillStep this s x).Nodup := by
  unfold fillStep
  split
  · exact h
  · split
    · exact setAdd_nodup s x h
    · exact h

theorem mem_fillStep (this : MoEVisualizer) (s : List Nat) (x y : Nat)
    (h : y ∈ fillStep this s x) : y ∈ s ∨ y = x := by
  unfold fillStep at h
  split at h
  · exact Or.inl h
  · split at h
    · exact (mem_setAdd s x y).mp h
    · exact Or.inl h

theorem fill_nodup (this : MoEVisualizer) : ∀ (l s : List Nat), s.Nodup →
    (l.foldl (fillStep this) s).Nodup
  | [], _, h => h
  | x :: l, s, h => fill_nodup this l (fillStep this s x) (fillStep_nodup this s x h)

theorem mem_fill (this : MoEVisualizer) : ∀ (l s : List Nat) (y : Nat),
    y ∈ l.foldl (fillStep this) s → y ∈ s ∨ y ∈ l
  | [], _, _, h => Or.inl h
  | x :: l, s, y, h => by
    rcases mem_fill this l (fillStep this s x) y h with h1 | h1
    · rcases mem_fillStep this s x y h1 with h2 | h2
      · exact Or.inl h2
      · exact Or.inr (h2 ▸ List.mem_cons_self x l)
    · exact Or.inr (List.mem_cons_of_mem x h1)


/-- Once the set is full the loop over the shuffled experts adds nothing. -/
theorem fill_full (this : MoEVisualizer) : ∀ (l s : List Nat),
    this.ROUTED_EXPERTS_COUNT ≤ s.length → l.foldl (fillStep this) s = s
  | [], _, _ => rfl
  | x :: l, s, h => by
    have hx : fillStep this s x = s := by simp [fillStep, h]
    simp only [List.foldl_cons, hx]
    exact fill_full this l s h

/-- Size of the set after the loop over a duplicate-free list of candidates:
the candidates not yet in the set are added until the set is full. -/
theorem fill_length (this : MoEVisualizer) : ∀ (l s : List Nat), l.Nodup →
    s.length ≤ this.ROUTED_EXPERTS_COUNT →
    (l.foldl (fillStep this) s).length =
      min this.ROUTED_EXPERTS_COUNT (s.length + (l.filter fun y => decide (¬ y ∈ s)).length)
  | [], s, _, hs => by simp [Nat.min_eq_right hs]
  | x :: l, s, hl, hs => by
    have hxl : ¬ x ∈ l := (List.nodup_cons.mp hl).1
    have hl1 : l.Nodup := (List.nodup_cons.mp hl).2
    simp only [List.foldl_cons]
    by_cases hfull : this.ROUTED_EXPERTS_COUNT ≤ s.length
    · have hx : fillStep this s x = s := by simp [fillStep, hfull]
      rw [hx, fill_full this l s hfull]
      omega
    · by_cases hxs : x ∈ s
      · have hx : fillStep this s x = s := by simp [fillStep, hxs]
        rw [hx, fill_length this l s hl1 hs]
        simp [List.filter_cons, hxs]
      · have hx : fillStep this s x = s ++ [x] := by simp [fillStep, setAdd, hxs, hfull]
        have hlen : (s ++ [x]).length ≤ this.ROUTED_EXPERTS_COUNT := by
          simp only [List.length_append, List.length_singleton]
          omega
        have hfilter : (l.filter fun y => decide (¬ y ∈ s ++ [x])) =
            (l.filter fun y => decide (¬ y ∈ s)) := by
          apply List.filter_congr
          intro y hy
          have hne : y ≠ x := fun h => hxl (h ▸ hy)
          simp [hne]
        rw [hx, fill_length this l (s ++ [x]) hl1 hlen, hfilter]
        simp only [List.length_append, List.length_singleton, List.filter_cons, hxs,
          not_false_eq_true, decide_True, if_true, List.length_cons, List.length_nil]
        omega

/-- A duplicate-free list of candidates has at most `s.length` entries in `s`. -/
theorem length_le_add_filter (l s : List Nat) (hl : l.Nodup) :
    l.length ≤ s.length + (l.filter fun y => decide (¬ y ∈ s)).length := by
  have hsplit := List.length_eq_length_filter_add (l := l) (fun y => decide (y ∈ s))
  have hin : (l.filter fun y => decide (y ∈ s)).length ≤ s.length := by
    apply List.Subperm.length_le
    apply List.subperm_of_subset (hl.filter _)
    intro y hy
    simpa using (List.mem_filter.mp hy).2
  have heq : (l.filter fun y => !decide (y ∈ s)) = (l.filter fun y => decide (¬ y ∈ s)) := by
    apply List.filter_congr
    intro y _
    simp
  rw [heq] at hsplit
  omega

theorem availableExperts_nodup (this : MoEVisualizer) : (availableExperts this).Nodup :=
  List.nodup_range' 1 _

theorem mem_availableExperts (this : MoEVisualizer) (x : Nat) :
    x ∈ availableExperts this ↔ 1 ≤ x ∧ (x : Int) < this.EXPERT_COUNT := by
  unfold availableExperts
  rw [List.mem_range'_1]
  omega

/-- What `selectExpertsForToken` computes: all three phases succeed, and the
result is the filled set cut to `ROUTED_EXPERTS_COUNT` entries. -/
theorem selectExpertsForToken_eq (toLowerCase : JSString → JSString) (this : MoEVisualizer)
    (token : Token) :
    ∃ sem sel shuffled,
      getSemanticExperts toLowerCase this token.text = some sem ∧
      (∀ x ∈ sem, InTable x) ∧
      semanticSelection this sem = some sel ∧
      sel.Nodup ∧ (∀ x ∈ sel, x ∈ sem) ∧
      shuffleArray (availableExperts this) (simpleHash token.text) = some shuffled ∧
      shuffled.Perm (availableExperts this) ∧
      selectExpertsForToken toLowerCase this token =
        some ((shuffled.foldl (fillStep this) sel).take this.ROUTED_EXPERTS_COUNT) := by
  obtain ⟨sem, h1, hsem⟩ := getSemanticExperts_some toLowerCase this token.text
  obtain ⟨sel, h2, hnd, hsel⟩ := semanticSelection_some this sem
  obtain ⟨shuffled, h3, hperm⟩ := shuffleArray_some (availableExperts this) (simpleHash token.text)
  refine ⟨sem, sel, shuffled, h1, hsem, h2, hnd, hsel, h3, hperm, ?_⟩
  simp only [selectExpertsForToken, h1, h2, h3]


/-! ## The hash -/

theorem toInt32_modEq (x : Int) : toInt32 x ≡ x [ZMOD 4294967296] := by
  unfold toInt32
  split
  · exact Int.mod_modEq x 4294967296
  · have h : x % 4294967296 - 4294967296 ≡ x % 4294967296 [ZMOD 4294967296] := by
      simp [Int.ModEq]
    exact h.trans (Int.mod_modEq x 4294967296)

theorem toInt32_congr {a b : Int} (h : a ≡ b [ZMOD 4294967296]) : toInt32 a = toInt32 b := by
  unfold toInt32
  have h1 : a % 4294967296 = b % 4294967296 := h
  rw [h1]

theorem toInt32_bounds (x : Int) : -2147483648 ≤ toInt32 x ∧ toInt32 x < 2147483648 := by
  unfold toInt32
  have h0 := Int.emod_nonneg x (show (4294967296 : Int) ≠ 0 by decide)
  have h1 := Int.emod_lt_of_pos x (show (0 : Int) < 4294967296 by decide)
  split <;> omega

theorem toInt32_of_bounds (x : Int) (h0 : -2147483648 ≤ x) (h1 : x < 2147483648) :
    toInt32 x = x := by
  unfold toInt32
  omega

/-- One turn of the loop of `simpleHash` multiplies by 31 and adds the code unit. -/
theorem hashStep_eq (h c : Int) :
    toInt32 (toInt32 (h * 32) - h + c) = toInt32 (h * 31 + c) := by
  apply toInt32_congr
  have h1 := toInt32_modEq (h * 32)
  have h2 : toInt32 (h * 32) - h + c ≡ h * 32 - h + c [ZMOD 4294967296] :=
    (h1.sub (Int.ModEq.refl h)).add (Int.ModEq.refl c)
  have h3 : h * 32 - h + c = h * 31 + c := by ring
  rw [h3] at h2
  exact h2

theorem simpleHashLoop_modEq : ∀ (s : JSString) (h : Int),
    simpleHashLoop h s ≡ h * 31 ^ s.length + hashPolynomial s [ZMOD 4294967296]
  | [], h => by simp [simpleHashLoop, hashPolynomial, Int.ModEq]
  | c :: rest, h => by
    have ih := simpleHashLoop_modEq rest (toInt32 (toInt32 (h * 32) - h + (c : Int)))
    rw [hashStep_eq] at ih
    have h1 : toInt32 (h * 31 + (c : Int)) * 31 ^ rest.length + hashPolynomial rest
        ≡ (h * 31 + (c : Int)) * 31 ^ rest.length + hashPolynomial rest [ZMOD 4294967296] :=
      ((toInt32_modEq _).mul (Int.ModEq.refl _)).add (Int.ModEq.refl _)
    have h2 : (h * 31 + (c : Int)) * 31 ^ rest.length + hashPolynomial rest
        = h * 31 ^ (c :: rest).length + hashPolynomial (c :: rest) := by
      simp only [hashPolynomial, List.length_cons, pow_succ]
      ring
    rw [h2] at h1
    simp only [simpleHashLoop]
    rw [hashStep_eq]
    exact ih.trans h1

theorem simpleHashLoop_bounds : ∀ (s : JSString) (h : Int),
    -2147483648 ≤ h → h < 2147483648 →
    -2147483648 ≤ simpleHashLoop h s ∧ simpleHashLoop h s < 2147483648
  | [], _, h0, h1 => ⟨h0, h1⟩
  | c :: rest, h, _, _ => by
    have hb := toInt32_bounds (toInt32 (h * 32) - h + (c : Int))
    exact simpleHashLoop_bounds rest _ hb.1 hb.2

/-- The loop of `simpleHash` computes the signed 32-bit wrap of the polynomial. -/
theorem simpleHashLoop_eq (s : JSString) :
    simpleHashLoop 0 s = toInt32 (hashPolynomial s) := by
  have hb := simpleHashLoop_bounds s 0 (by decide) (by decide)
  have hm := simpleHashLoop_modEq s 0
  rw [zero_mul, zero_add] at hm
  rw [← toInt32_congr hm, toInt32_of_bounds _ hb.1 hb.2]


/-! ## Properties of the routed set -/

/-- The result of `selectExpertsForToken` depends on the state only through
the three fields the method reads, and on the token only through its text. -/
theorem selectExpertsForToken_congr (toLowerCase : JSString → JSString)
    (v1 v2 : MoEVisualizer) (t1 t2 : Token) (htext : t1.text = t2.text)
    (he : v1.EXPERT_COUNT = v2.EXPERT_COUNT)
    (hr : v1.ROUTED_EXPERTS_COUNT = v2.ROUTED_EXPERTS_COUNT)
    (hs : v1.SHARED_EXPERT_INDEX = v2.SHARED_EXPERT_INDEX) :
    selectExpertsForToken toLowerCase v1 t1 = selectExpertsForToken toLowerCase v2 t2 := by
  have hp : primaryStep v1 = primaryStep v2 := by
    funext a b c d
    simp only [primaryStep, hs]
  have hsec : secondaryStep v1 = secondaryStep v2 := by
    funext a b c d
    simp only [secondaryStep, hs]
  have hpe : primaryExperts v1 = primaryExperts v2 := by
    funext a b
    cases b <;> simp only [primaryExperts, hp]
  have hsem : semanticStep v1 = semanticStep v2 := by
    funext a b c
    simp only [semanticStep, hs]
  have hfill : fillStep v1 = fillStep v2 := by
    funext a b
    simp only [fillStep, hr]
  simp only [selectExpertsForToken, getSemanticExperts, semanticSelection, availableExperts,
    htext, he, hr, hp, hsec, hpe, hsem, hfill]

/-- Every element of the result is a semantic expert from the table or one
of the available experts `1 .. EXPERT_COUNT - 1`. -/
theorem selectExpertsForToken_mem (toLowerCase : JSString → JSString) (this : MoEVisualizer)
    (token : Token) :
    ∃ r, selectExpertsForToken toLowerCase this token = some r ∧ r.Nodup ∧
      ∀ x ∈ r, InTable x ∨ x ∈ availableExperts this := by
  obtain ⟨sem, sel, shuffled, _, hsem, _, hnd, hsel, _, hperm, hres⟩ :=
    selectExpertsForToken_eq toLowerCase this token
  refine ⟨_, hres, ?_, ?_⟩
  · exact (fill_nodup this shuffled sel hnd).sublist (List.take_sublist _ _)
  · intro x hx
    rcases mem_fill this shuffled sel x (List.mem_of_mem_take hx) with h | h
    · exact Or.inl (hsem x (hsel x h))
    · exact Or.inr (hperm.subset h)

/-- Size of the result: the selected semantic experts plus the available
experts outside them, cut at `ROUTED_EXPERTS_COUNT`. -/
theorem selectExpertsForToken_length (toLowerCase : JSString → JSString) (this : MoEVisualizer)
    (token : Token) :
    ∃ r sem sel, selectExpertsForToken toLowerCase this token = some r ∧
      getSemanticExperts toLowerCase this token.text = some sem ∧
      semanticSelection this sem = some sel ∧
      r.length = min this.ROUTED_EXPERTS_COUNT
        (sel.length + ((availableExperts this).filter fun y => decide (¬ y ∈ sel)).length) := by
  obtain ⟨sem, sel, shuffled, h1, _, h2, _, _, _, hperm, hres⟩ :=
    selectExpertsForToken_eq toLowerCase this token
  refine ⟨_, sem, sel, hres, h1, h2, ?_⟩
  have hnd : shuffled.Nodup := hperm.nodup_iff.mpr (availableExperts_nodup this)
  have hcnt : (shuffled.filter fun y => decide (¬ y ∈ sel)).length =
      ((availableExperts this).filter fun y => decide (¬ y ∈ sel)).length :=
    (hperm.filter _).length_eq
  rw [List.length_take, ← hcnt]
  by_cases hfull : this.ROUTED_EXPERTS_COUNT ≤ sel.length
  · rw [fill_full this shuffled sel hfull]
    omega
  · rw [fill_length this shuffled sel hnd (by omega)]
    omega


/-- When there are at least `ROUTED_EXPERTS_COUNT` available experts the
result has exactly `ROUTED_EXPERTS_COUNT` elements. -/
theorem selectExpertsForToken_length_full (toLowerCase : JSString → JSString)
    (this : MoEVisualizer) (token : Token)
    (h : (this.ROUTED_EXPERTS_COUNT : Int) ≤ this.EXPERT_COUNT - 1) :
    ∃ r, selectExpertsForToken toLowerCase this token = some r ∧
      r.length = this.ROUTED_EXPERTS_COUNT := by
  obtain ⟨r, sem, sel, hres, _, _, hlen⟩ := selectExpertsForToken_length toLowerCase this token
  refine ⟨r, hres, ?_⟩
  have h1 := length_le_add_filter (availableExperts this) sel (availableExperts_nodup this)
  have h2 : (availableExperts this).length = this.EXPERT_COUNT.toNat - 1 := by
    simp [availableExperts]
  omega

/-! ## The claims -/

set_option maxRecDepth 20000

/-- C1. Determinism: two calls of `selectExpertsForToken` on tokens with the
same text, in states that agree on the fields the method reads (`EXPERT_COUNT`,
`ROUTED_EXPERTS_COUNT` and the constant `SHARED_EXPERT_INDEX`), both return,
and return the same list, whatever the tokens' id, embedding and position and
whatever the other fields of the two states. The method is a function of the
state: it assigns no field, the state after the call being the state before. -/
theorem selectExpertsForToken_deterministic (toLowerCase : JSString → JSString)
    (v1 v2 : MoEVisualizer) (t1 t2 : Token) (htext : t1.text = t2.text)
    (he : v1.EXPERT_COUNT = v2.EXPERT_COUNT)
    (hr : v1.ROUTED_EXPERTS_COUNT = v2.ROUTED_EXPERTS_COUNT)
    (hs : v1.SHARED_EXPERT_INDEX = v2.SHARED_EXPERT_INDEX) :
    ∃ r, selectExpertsForToken toLowerCase v1 t1 = some r ∧
      selectExpertsForToken toLowerCase v2 t2 = some r := by
  obtain ⟨r, hres, _⟩ := selectExpertsForToken_mem toLowerCase v1 t1
  exact ⟨r, hres, by rw [← selectExpertsForToken_congr toLowerCase v1 v2 t1 t2 htext he hr hs, hres]⟩

theorem selectExpertsForToken_deterministic_witness :
    (tokenOf (js "math")).text = mathToken.text ∧
      MoEVisualizer.constructed.EXPERT_COUNT = busyVisualizer.EXPERT_COUNT ∧
      MoEVisualizer.constructed.ROUTED_EXPERTS_COUNT = busyVisualizer.ROUTED_EXPERTS_COUNT ∧
      MoEVisualizer.constructed.SHARED_EXPERT_INDEX = busyVisualizer.SHARED_EXPERT_INDEX ∧
      ∃ r, selectExpertsForToken asciiLower MoEVisualizer.constructed (tokenOf (js "math")) = some r ∧
        selectExpertsForToken asciiLower busyVisualizer mathToken = some r :=
  ⟨rfl, rfl, rfl, rfl, selectExpertsForToken_deterministic asciiLower MoEVisualizer.constructed
    busyVisualizer (tokenOf (js "math")) mathToken rfl rfl rfl rfl⟩

/-- C2. Bound, at the scenario `route("xyz123", 4, 8)`: the code returns six
experts, not `min(8, 4 - 1) = 3`: the three math experts of the semantic phase,
which ignores `EXPERT_COUNT`, and then all of the available experts 1, 2, 3. -/
theorem selectExpertsForToken_size_four_experts :
    (selectExpertsForToken asciiLower fourExperts (tokenOf (js "xyz123"))).map List.length
        = some 6 ∧
      6 ≠ min fourExperts.ROUTED_EXPERTS_COUNT (fourExperts.EXPERT_COUNT.toNat - 1) := by
  decide

/-- C3. Range, at the scenario `route("xyz123", 4, 8)`: the code returns
16, 24 and 8, which lie outside `[1, 3]`: the semantic phase takes them from
the table `expertTypes` without comparing them with `EXPERT_COUNT`. -/
theorem selectExpertsForToken_range_four_experts :
    selectExpertsForToken asciiLower fourExperts (tokenOf (js "xyz123"))
        = some [16, 24, 8, 2, 1, 3] ∧
      ¬ (16 : Int) ≤ fourExperts.EXPERT_COUNT - 1 := by
  decide

/-- C4, as stated, fails: with `EXPERT_COUNT = 1 < 2` the call on `test`
signals nothing and returns the list of experts 10, 19. -/
theorem selectExpertsForToken_one_expert_returns :
    oneExpert.EXPERT_COUNT < 2 ∧
      selectExpertsForToken asciiLower oneExpert (tokenOf (js "test")) = some [10, 19] := by
  decide

/-- C4, amended. For every text and every `EXPERT_COUNT < 2` the call signals
no error: it returns the experts selected by the semantic phase (cut to
`ROUTED_EXPERTS_COUNT` entries), the scatter-fill phase adding nothing. -/
theorem selectExpertsForToken_below_two (toLowerCase : JSString → JSString)
    (this : MoEVisualizer) (token : Token) (he : this.EXPERT_COUNT < 2) :
    ∃ sem sel, getSemanticExperts toLowerCase this token.text = some sem ∧
      semanticSelection this sem = some sel ∧
      selectExpertsForToken toLowerCase this token =
        some (sel.take this.ROUTED_EXPERTS_COUNT) := by
  obtain ⟨sem, sel, shuffled, h1, _, h2, _, _, _, hperm, hres⟩ :=
    selectExpertsForToken_eq toLowerCase this token
  refine ⟨sem, sel, h1, h2, ?_⟩
  have hav : availableExperts this = [] := by
    have h0 : this.EXPERT_COUNT.toNat - 1 = 0 := by omega
    simp [availableExperts, h0]
  rw [hav] at hperm
  rw [hres, List.Perm.eq_nil hperm]
  rfl

theorem selectExpertsForToken_below_two_witness :
    oneExpert.EXPERT_COUNT < 2 ∧
      ∃ sem sel, getSemanticExperts asciiLower oneExpert (tokenOf (js "test")).text = some sem ∧
        semanticSelection oneExpert sem = some sel ∧
        selectExpertsForToken asciiLower oneExpert (tokenOf (js "test")) =
          some (sel.take oneExpert.ROUTED_EXPERTS_COUNT) :=
  ⟨by decide, selectExpertsForToken_below_two asciiLower oneExpert (tokenOf (js "test"))
    (by decide)⟩

/-- C5. Exclusion: for every text and every state (every `EXPERT_COUNT`), the
call returns a list that does not contain the shared-expert index 0. -/
theorem selectExpertsForToken_excludes_zero (toLowerCase : JSString → JSString)
    (this : MoEVisualizer) (token : Token) :
    ∃ r, selectExpertsForToken toLowerCase this token = some r ∧ ¬ 0 ∈ r := by
  obtain ⟨r, hres, _, hmem⟩ := selectExpertsForToken_mem toLowerCase this token
  refine ⟨r, hres, ?_⟩
  intro h0
  rcases hmem 0 h0 with h | h
  · have := h.bounds
    omega
  · have := (mem_availableExperts this 0).mp h
    omega

/-- C6. Uniqueness: for every text and every state (every `EXPERT_COUNT`), the
list returned by `selectExpertsForToken` has no duplicate element. -/
theorem selectExpertsForToken_nodup (toLowerCase : JSString → JSString)
    (this : MoEVisualizer) (token : Token) :
    ∃ r, selectExpertsForToken toLowerCase this token = some r ∧ r.Nodup := by
  obtain ⟨r, hres, hnd, _⟩ := selectExpertsForToken_mem toLowerCase this token
  exact ⟨r, hres, hnd⟩

/-- C7. Default configuration: with `EXPERT_COUNT = 32` and
`ROUTED_EXPERTS_COUNT = 8`, for every text (the empty string included) the call
returns exactly 8 pairwise distinct experts, each in `1 .. 31`. -/
theorem selectExpertsForToken_default (toLowerCase : JSString → JSString)
    (this : MoEVisualizer) (token : Token) (he : this.EXPERT_COUNT = 32)
    (hr : this.ROUTED_EXPERTS_COUNT = 8) :
    ∃ r, selectExpertsForToken toLowerCase this token = some r ∧
      r.length = 8 ∧ r.Nodup ∧ ∀ x ∈ r, 1 ≤ x ∧ x ≤ 31 := by
  obtain ⟨r, hres, hnd, hmem⟩ := selectExpertsForToken_mem toLowerCase this token
  obtain ⟨r1, hres1, hlen⟩ := selectExpertsForToken_length_full toLowerCase this token
    (by rw [he, hr]; decide)
  have hr1 : r1 = r := Option.some.inj (hres1.symm.trans hres)
  subst hr1
  refine ⟨r1, hres, by rw [hlen, hr], hnd, ?_⟩
  intro x hx
  rcases hmem x hx with h | h
  · exact h.bounds
  · have := (mem_availableExperts this x).mp h
    omega

theorem selectExpertsForToken_default_witness :
    MoEVisualizer.constructed.EXPERT_COUNT = 32 ∧
      MoEVisualizer.constructed.ROUTED_EXPERTS_COUNT = 8 ∧
      ∃ r, selectExpertsForToken asciiLower MoEVisualizer.constructed (tokenOf (js "")) = some r ∧
        r.length = 8 ∧ r.Nodup ∧ ∀ x ∈ r, 1 ≤ x ∧ x ≤ 31 :=
  ⟨rfl, rfl, selectExpertsForToken_default asciiLower MoEVisualizer.constructed
    (tokenOf (js "")) rfl rfl⟩

/-- C8. Cap: with `ROUTED_EXPERTS_COUNT = 8`, for every text and every
`EXPERT_COUNT`, valid or not, the call returns at most 8 elements. -/
theorem selectExpertsForToken_length_le (toLowerCase : JSString → JSString)
    (this : MoEVisualizer) (token : Token) (hr : this.ROUTED_EXPERTS_COUNT = 8) :
    ∃ r, selectExpertsForToken toLowerCase this token = some r ∧ r.length ≤ 8 := by
  obtain ⟨r, _, _, hres, _, _, hlen⟩ := selectExpertsForToken_length toLowerCase this token
  exact ⟨r, hres, by rw [hlen, hr]; exact Nat.min_le_left _ _⟩

theorem selectExpertsForToken_length_le_witness :
    fourExperts.ROUTED_EXPERTS_COUNT = 8 ∧
      ∃ r, selectExpertsForToken asciiLower fourExperts (tokenOf (js "xyz123")) = some r ∧
        r.length ≤ 8 :=
  ⟨rfl, selectExpertsForToken_length_le asciiLower fourExperts (tokenOf (js "xyz123")) rfl⟩

/-- C9. Totality: for every text (any list of code units) and every
`EXPERT_COUNT` (in particular every one that is at least 2), every index the
routing computes is inside the array it indexes: an offset modulo the length
of a list of `expertTypes`, an offset modulo the number of secondary types,
and each swap partner `j <= i`. Hence `getSemanticExperts`, the selection of
the semantic experts, `shuffleArray` on the available experts and
`selectExpertsForToken` itself all return a value, no read being `undefined`. -/
theorem selectExpertsForToken_total (toLowerCase : JSString → JSString)
    (this : MoEVisualizer) (token : Token) :
    (∀ (t : ExpertType) (k : Nat), k % (expertTypes t).length < (expertTypes t).length) ∧
    (∀ (k : Nat), k % (secondaryTypes (primaryType toLowerCase token.text)).length
      < (secondaryTypes (primaryType toLowerCase token.text)).length) ∧
    (∀ (seed i : Nat), swapPartner seed i ≤ i) ∧
    (∃ sem, getSemanticExperts toLowerCase this token.text = some sem ∧
      ∃ sel, semanticSelection this sem = some sel) ∧
    (∃ shuffled, shuffleArray (availableExperts this) (simpleHash token.text) = some shuffled) ∧
    ∃ r, selectExpertsForToken toLowerCase this token = some r := by
  obtain ⟨sem, sel, shuffled, h1, _, h2, _, _, h3, _, hres⟩ :=
    selectExpertsForToken_eq toLowerCase this token
  exact ⟨fun t k => Nat.mod_lt k (expertTypes_length_pos t),
    fun k => Nat.mod_lt k (secondaryTypes_length_pos _),
    swapPartner_le, ⟨sem, h1, sel, h2⟩, ⟨shuffled, h3⟩, ⟨_, hres⟩⟩

/-- C10. Hash definition: `simpleHash s` is the absolute value of the signed
32-bit wrap `w` of the polynomial `hashPolynomial s` (the sum of
`c_i * 31^(n-1-i)`): `w` is the integer of `[-2^31, 2^31)` congruent to the
polynomial modulo `2^32`, and it is `toInt32` of it. The hash of the empty
string is 0. -/
theorem simpleHash_eq_polynomial (s : JSString) :
    simpleHash s = (toInt32 (hashPolynomial s)).natAbs ∧
      (-2147483648 ≤ toInt32 (hashPolynomial s) ∧ toInt32 (hashPolynomial s) < 2147483648 ∧
        (4294967296 : Int) ∣ hashPolynomial s - toInt32 (hashPolynomial s)) ∧
      simpleHash (js "") = 0 := by
  refine ⟨?_, ⟨(toInt32_bounds _).1, (toInt32_bounds _).2, ?_⟩, by decide⟩
  · unfold simpleHash
    rw [simpleHashLoop_eq]
  · exact (toInt32_modEq (hashPolynomial s)).dvd

/-! ## The tables -/

theorem expertTypes_nodup (t : ExpertType) : (expertTypes t).Nodup := by
  cases t <;> decide

theorem expertTypes_length (t : ExpertType) :
    (expertTypes t).length = 3 ∨ (expertTypes t).length = 4 := by
  cases t <;> decide

/-- The lists of two different categories have no expert in common. -/
theorem expertTypes_disjoint (t u : ExpertType) (x : Nat) (htu : t ≠ u)
    (ht : x ∈ expertTypes t) (hu : x ∈ expertTypes u) : False := by
  cases t <;> cases u <;> simp [expertTypes] at ht hu htu <;> omega

theorem secondaryTypes_nodup (primary : Option ExpertType) : (secondaryTypes primary).Nodup := by
  unfold secondaryTypes
  exact List.Nodup.filter _ (by decide)

theorem mem_secondaryTypes (primary : Option ExpertType) (t : ExpertType)
    (h : t ∈ secondaryTypes primary) : some t ≠ primary := by
  unfold secondaryTypes at h
  simpa using (List.mem_filter.mp h).2

theorem secondaryTypes_length_none : (secondaryTypes none).length = 8 := by
  decide

theorem secondaryTypes_length_some (p : ExpertType) : (secondaryTypes (some p)).length = 7 := by
  cases p <;> decide

theorem secondaryTypes_length (primary : Option ExpertType) :
    (secondaryTypes primary).length = 7 ∨ (secondaryTypes primary).length = 8 := by
  cases primary with
  | none => exact Or.inr secondaryTypes_length_none
  | some p => exact Or.inl (secondaryTypes_length_some p)

/-- Two reads of a duplicate-free array at different indices inside it give
different values. -/
theorem getElem?_ne_of_ne {α : Type} (l : List α) (hl : l.Nodup) (i j : Nat) (x y : α)
    (hi : l[i]? = some x) (hj : l[j]? = some y) (hij : i ≠ j) : x ≠ y := by
  intro hxy
  obtain ⟨hilt, _⟩ := List.getElem?_eq_some_iff.mp hi
  apply hij
  apply List.getElem?_inj hilt hl
  rw [hi, hj, hxy]

/-! ## The semantic experts, entry by entry -/

theorem primaryStep_push (this : MoEVisualizer) (typeExperts : List Nat) (hash : Nat)
    (experts : List Nat) (i x : Nat)
    (hx : typeExperts[(hash + i) % typeExperts.length]? = some x)
    (hne : x ≠ this.SHARED_EXPERT_INDEX) :
    primaryStep this typeExperts hash experts i = some (experts ++ [x]) := by
  simp [primaryStep, hx, hne]

/-- The primary picks: the three reads at the offsets `hash + 0`, `hash + 1`,
`hash + 2` modulo the length of the list, all pushed, pairwise distinct. -/
theorem primaryExperts_eq (this : MoEVisualizer) (hs : this.SHARED_EXPERT_INDEX = 0)
    (hash : Nat) (p : ExpertType) :
    ∃ x0 x1 x2,
      (expertTypes p)[(hash + 0) % (expertTypes p).length]? = some x0 ∧
      (expertTypes p)[(hash + 1) % (expertTypes p).length]? = some x1 ∧
      (expertTypes p)[(hash + 2) % (expertTypes p).length]? = some x2 ∧
      primaryExperts this hash (some p) = some [x0, x1, x2] ∧
      x0 ≠ x1 ∧ x0 ≠ x2 ∧ x1 ≠ x2 ∧
      x0 ∈ expertTypes p ∧ x1 ∈ expertTypes p ∧ x2 ∈ expertTypes p := by
  have hpos := expertTypes_length_pos p
  obtain ⟨x0, h0, m0⟩ := getElem?_mod_length (expertTypes p) (hash + 0) hpos
  obtain ⟨x1, h1, m1⟩ := getElem?_mod_length (expertTypes p) (hash + 1) hpos
  obtain ⟨x2, h2, m2⟩ := getElem?_mod_length (expertTypes p) (hash + 2) hpos
  have hne : ∀ x, x ∈ expertTypes p → x ≠ this.SHARED_EXPERT_INDEX := by
    intro x hx
    have := expertTypes_mem_bounds p x hx
    omega
  have hnd := expertTypes_nodup p
  have hmin : min 3 (expertTypes p).length = 3 := by
    rcases expertTypes_length p with h | h <;> rw [h] <;> decide
  have hidx : (hash + 0) % (expertTypes p).length ≠ (hash + 1) % (expertTypes p).length ∧
      (hash + 0) % (expertTypes p).length ≠ (hash + 2) % (expertTypes p).length ∧
      (hash + 1) % (expertTypes p).length ≠ (hash + 2) % (expertTypes p).length := by
    rcases expertTypes_length p with h | h <;> rw [h] <;> omega
  refine ⟨x0, x1, x2, h0, h1, h2, ?_,
    getElem?_ne_of_ne _ hnd _ _ x0 x1 h0 h1 hidx.1,
    getElem?_ne_of_ne _ hnd _ _ x0 x2 h0 h2 hidx.2.1,
    getElem?_ne_of_ne _ hnd _ _ x1 x2 h1 h2 hidx.2.2, m0, m1, m2⟩
  have hrange : List.range 3 = [0, 1, 2] := by decide
  simp only [primaryExperts, hmin, hrange, List.foldlM, 
    primaryStep_push this _ hash _ 0 x0 h0 (hne x0 m0),
    primaryStep_push this _ hash _ 1 x1 h1 (hne x1 m1),
    primaryStep_push this _ hash _ 2 x2 h2 (hne x2 m2)]
  rfl

theorem secondaryStep_push (this : MoEVisualizer) (types : List ExpertType) (hash : Nat)
    (experts : List Nat) (i : Nat) (t : ExpertType) (x : Nat)
    (hlen : experts.length < 5)
    (ht : types[(hash + i) % types.length]? = some t)
    (hx : (expertTypes t)[(hash + i + 7) % (expertTypes t).length]? = some x)
    (hne : x ≠ this.SHARED_EXPERT_INDEX) (hnew : ¬ x ∈ experts) :
    secondaryStep this types hash experts i = some (experts ++ [x]) := by
  simp [secondaryStep, hlen, ht, hx, hne, hnew]

/-- The secondary picks, from a list `prim` of at most three experts of the
primary category: two reads in two different secondary categories, both
pushed. -/
theorem secondaryLoop_eq (this : MoEVisualizer) (hs : this.SHARED_EXPERT_INDEX = 0)
    (hash : Nat) (primary : Option ExpertType) (prim : List Nat) (hlen : prim.length ≤ 3)
    (hprim : ∀ x ∈ prim, ∃ p, primary = some p ∧ x ∈ expertTypes p) :
    ∃ t0 t1 x0 x1,
      (secondaryTypes primary)[(hash + 0) % (secondaryTypes primary).length]? = some t0 ∧
      (secondaryTypes primary)[(hash + 1) % (secondaryTypes primary).length]? = some t1 ∧
      (expertTypes t0)[(hash + 0 + 7) % (expertTypes t0).length]? = some x0 ∧
      (expertTypes t1)[(hash + 1 + 7) % (expertTypes t1).length]? = some x1 ∧
      (List.range 2).foldlM (secondaryStep this (secondaryTypes primary) hash) prim
        = some (prim ++ [x0, x1]) ∧
      t0 ≠ t1 ∧ some t0 ≠ primary ∧ some t1 ≠ primary ∧
      x0 ≠ x1 ∧ ¬ x0 ∈ prim ∧ ¬ x1 ∈ prim ∧ x0 ≠ 0 ∧ x1 ≠ 0 := by
  have hpos := secondaryTypes_length_pos primary
  obtain ⟨t0, ht0, mt0⟩ := getElem?_mod_length (secondaryTypes primary) (hash + 0) hpos
  obtain ⟨t1, ht1, mt1⟩ := getElem?_mod_length (secondaryTypes primary) (hash + 1) hpos
  obtain ⟨x0, hx0, m0⟩ := getElem?_mod_length (expertTypes t0) (hash + 0 + 7)
    (expertTypes_length_pos t0)
  obtain ⟨x1, hx1, m1⟩ := getElem?_mod_length (expertTypes t1) (hash + 1 + 7)
    (expertTypes_length_pos t1)
  have hidx : (hash + 0) % (secondaryTypes primary).length
      ≠ (hash + 1) % (secondaryTypes primary).length := by
    rcases secondaryTypes_length primary with h | h <;> rw [h] <;> omega
  have ht01 : t0 ≠ t1 :=
    getElem?_ne_of_ne _ (secondaryTypes_nodup primary) _ _ t0 t1 ht0 ht1 hidx
  have hp0 : some t0 ≠ primary := mem_secondaryTypes primary t0 mt0
  have hp1 : some t1 ≠ primary := mem_secondaryTypes primary t1 mt1
  have hx01 : x0 ≠ x1 := fun h => expertTypes_disjoint t0 t1 x0 ht01 m0 (h ▸ m1)
  have hn0 : ¬ x0 ∈ prim := by
    intro h
    obtain ⟨p, hp, hmem⟩ := hprim x0 h
    exact expertTypes_disjoint t0 p x0 (fun e => hp0 (e ▸ hp.symm)) m0 hmem
  have hn1 : ¬ x1 ∈ prim := by
    intro h
    obtain ⟨p, hp, hmem⟩ := hprim x1 h
    exact expertTypes_disjoint t1 p x1 (fun e => hp1 (e ▸ hp.symm)) m1 hmem
  have hz0 : x0 ≠ 0 := by
    have := expertTypes_mem_bounds t0 x0 m0
    omega
  have hz1 : x1 ≠ 0 := by
    have := expertTypes_mem_bounds t1 x1 m1
    omega
  refine ⟨t0, t1, x0, x1, ht0, ht1, hx0, hx1, ?_, ht01, hp0, hp1, hx01, hn0, hn1, hz0, hz1⟩
  have hrange : List.range 2 = [0, 1] := by decide
  have hstep0 := secondaryStep_push this (secondaryTypes primary) hash prim 0 t0 x0
    (by omega) ht0 hx0 (by rw [hs]; exact hz0) hn0
  have hstep1 := secondaryStep_push this (secondaryTypes primary) hash (prim ++ [x0]) 1 t1 x1
    (by simp only [List.length_append, List.length_singleton]; omega) ht1 hx1
    (by rw [hs]; exact hz1)
    (by
      intro h
      rcases List.mem_append.mp h with h | h
      · exact hn1 h
      · exact hx01 (List.mem_singleton.mp h).symm)
  simp only [hrange, List.foldlM, hstep0]
  simp [hstep1]

/-- What `getSemanticExperts` returns: the primary picks, then the two
secondary picks. -/
theorem getSemanticExperts_eq (toLowerCase : JSString → JSString) (this : MoEVisualizer)
    (hs : this.SHARED_EXPERT_INDEX = 0) (text : JSString) :
    ∃ prim t0 t1 x0 x1,
      primaryExperts this (simpleHash text) (primaryType toLowerCase text) = some prim ∧
      (primaryType toLowerCase text = none → prim = []) ∧
      (∀ p, primaryType toLowerCase text = some p → ∃ a b c,
        (expertTypes p)[(simpleHash text + 0) % (expertTypes p).length]? = some a ∧
        (expertTypes p)[(simpleHash text + 1) % (expertTypes p).length]? = some b ∧
        (expertTypes p)[(simpleHash text + 2) % (expertTypes p).length]? = some c ∧
        prim = [a, b, c] ∧ a ≠ b ∧ a ≠ c ∧ b ≠ c ∧
        a ∈ expertTypes p ∧ b ∈ expertTypes p ∧ c ∈ expertTypes p) ∧
      (secondaryTypes (primaryType toLowerCase text))[(simpleHash text + 0)
        % (secondaryTypes (primaryType toLowerCase text)).length]? = some t0 ∧
      (secondaryTypes (primaryType toLowerCase text))[(simpleHash text + 1)
        % (secondaryTypes (primaryType toLowerCase text)).length]? = some t1 ∧
      (expertTypes t0)[(simpleHash text + 0 + 7) % (expertTypes t0).length]? = some x0 ∧
      (expertTypes t1)[(simpleHash text + 1 + 7) % (expertTypes t1).length]? = some x1 ∧
      getSemanticExperts toLowerCase this text = some (prim ++ [x0, x1]) ∧
      t0 ≠ t1 ∧ some t0 ≠ primaryType toLowerCase text ∧
      some t1 ≠ primaryType toLowerCase text ∧
      (prim ++ [x0, x1]).Nodup ∧ ¬ 0 ∈ prim ++ [x0, x1] := by
  have key : ∃ prim,
      primaryExperts this (simpleHash text) (primaryType toLowerCase text) = some prim ∧
      (primaryType toLowerCase text = none → prim = []) ∧
      (∀ p, primaryType toLowerCase text = some p → ∃ a b c,
        (expertTypes p)[(simpleHash text + 0) % (expertTypes p).length]? = some a ∧
        (expertTypes p)[(simpleHash text + 1) % (expertTypes p).length]? = some b ∧
        (expertTypes p)[(simpleHash text + 2) % (expertTypes p).length]? = some c ∧
        prim = [a, b, c] ∧ a ≠ b ∧ a ≠ c ∧ b ≠ c ∧
        a ∈ expertTypes p ∧ b ∈ expertTypes p ∧ c ∈ expertTypes p) ∧
      prim.length ≤ 3 ∧ prim.Nodup ∧ ¬ 0 ∈ prim ∧
      (∀ x ∈ prim, ∃ p, primaryType toLowerCase text = some p ∧ x ∈ expertTypes p) := by
    cases hp : primaryType toLowerCase text with
    | none =>
      exact ⟨[], rfl, fun _ => rfl, (fun p h => by cases h), by simp, List.nodup_nil, by simp,
        by simp⟩
    | some p =>
      obtain ⟨a, b, c, ha, hb, hc, hres, hab, hac, hbc, ma, mb, mc⟩ :=
        primaryExperts_eq this hs (simpleHash text) p
      refine ⟨[a, b, c], hres, (fun h => by cases h), ?_, by simp, ?_, ?_, ?_⟩
      · intro q hq
        cases hq
        exact ⟨a, b, c, ha, hb, hc, rfl, hab, hac, hbc, ma, mb, mc⟩
      · simp [hab, hac, hbc]
      · have h1 := expertTypes_mem_bounds p a ma
        have h2 := expertTypes_mem_bounds p b mb
        have h3 := expertTypes_mem_bounds p c mc
        simp only [List.mem_cons, List.mem_singleton, List.not_mem_nil, or_false, not_or]
        omega
      · intro x hx
        simp only [List.mem_cons, List.mem_singleton, List.not_mem_nil, or_false] at hx
        rcases hx with h | h | h <;> subst h
        · exact ⟨p, rfl, ma⟩
        · exact ⟨p, rfl, mb⟩
        · exact ⟨p, rfl, mc⟩
  obtain ⟨prim, hprim, hnone, hsome, hlen, hnd, hz, hfrom⟩ := key
  obtain ⟨t0, t1, x0, x1, ht0, ht1, hx0, hx1, hloop, ht01, hp0, hp1, hx01, hn0, hn1, hz0, hz1⟩ :=
    secondaryLoop_eq this hs (simpleHash text) (primaryType toLowerCase text) prim hlen hfrom
  refine ⟨prim, t0, t1, x0, x1, hprim, hnone, hsome, ht0, ht1, hx0, hx1, ?_, ht01, hp0, hp1,
    ?_, ?_⟩
  · simp only [getSemanticExperts, hprim]
    exact hloop
  · rw [List.nodup_append]
    refine ⟨hnd, by simp [hx01], ?_⟩
    intro x hx hx2
    simp only [List.mem_cons, List.mem_singleton, List.not_mem_nil, or_false] at hx2
    rcases hx2 with h | h <;> subst h
    · exact hn0 hx
    · exact hn1 hx
  · intro h
    rcases List.mem_append.mp h with h | h
    · exact hz h
    · simp only [List.mem_cons, List.mem_singleton, List.not_mem_nil, or_false] at h
      rcases h with h | h
      · exact hz0 h.symm
      · exact hz1 h.symm

/-! ## The selection of the semantic experts -/

theorem semanticStep_push (this : MoEVisualizer) (sem sel : List Nat) (i x : Nat)
    (hx : sem[i]? = some x) (hne : x ≠ this.SHARED_EXPERT_INDEX) (hnew : ¬ x ∈ sel) :
    semanticStep this sem sel i = some (sel ++ [x]) := by
  simp [semanticStep, hx, hne, setAdd, hnew]

/-- Step 1 of `selectExpertsForToken` on a list that is free of the shared
expert and whose first three entries are distinct: these entries, in order. -/
theorem semanticSelection_eq (this : MoEVisualizer) (sem : List Nat)
    (hne : ∀ x ∈ sem, x ≠ this.SHARED_EXPERT_INDEX) (hnd : (sem.take 3).Nodup) :
    semanticSelection this sem = some (sem.take 3) := by
  unfold semanticSelection
  match sem, hne, hnd with
  | [], _, _ => rfl
  | [a], hne, _ =>
    have h1 : List.range (min 3 [a].length) = [0] := rfl
    rw [h1]
    simp [List.foldlM, semanticStep_push this [a] [] 0 a rfl (hne a (by simp)) (by simp)]
  | [a, b], hne, hnd =>
    have h1 : List.range (min 3 [a, b].length) = [0, 1] := rfl
    have hab : a ≠ b := by
      intro h
      simp [h] at hnd
    rw [h1]
    simp [List.foldlM, semanticStep_push this [a, b] [] 0 a rfl (hne a (by simp)) (by simp),
      semanticStep_push this [a, b] [a] 1 b rfl (hne b (by simp)) (by simpa using hab.symm)]
  | a :: b :: c :: rest, hne, hnd =>
    have h1 : List.range (min 3 (a :: b :: c :: rest).length) = [0, 1, 2] := by
      have : min 3 (a :: b :: c :: rest).length = 3 := by
        simp only [List.length_cons]
        omega
      rw [this]
      decide
    have hd : a ≠ b ∧ a ≠ c ∧ b ≠ c := by
      simp only [List.take_succ_cons, List.take_zero, List.nodup_cons, List.mem_cons,
        List.mem_singleton, List.not_mem_nil, or_false, not_or, List.nodup_nil] at hnd
      exact ⟨hnd.1.1, hnd.1.2, hnd.2.1⟩
    rw [h1]
    simp [List.foldlM,
      semanticStep_push this (a :: b :: c :: rest) [] 0 a rfl (hne a (by simp)) (by simp),
      semanticStep_push this (a :: b :: c :: rest) [a] 1 b rfl (hne b (by simp))
        (by simpa using hd.1.symm),
      semanticStep_push this (a :: b :: c :: rest) [a, b] 2 c (by simp) (hne c (by simp))
        (by simp only [List.mem_cons, List.mem_singleton, List.not_mem_nil, or_false, not_or]
            exact ⟨hd.2.1.symm, hd.2.2.symm⟩)]

/-- The loop over the shuffled experts only appends to the set. -/
theorem fill_append (this : MoEVisualizer) : ∀ (l s : List Nat),
    ∃ t, l.foldl (fillStep this) s = s ++ t
  | [], s => ⟨[], by simp⟩
  | x :: l, s => by
    have hstep : ∃ u, fillStep this s x = s ++ u := by
      unfold fillStep setAdd
      split
      · exact ⟨[], by simp⟩
      · split
        · exact ⟨[x], by simp_all⟩
        · exact ⟨[], by simp⟩
    obtain ⟨u, hu⟩ := hstep
    obtain ⟨t, ht⟩ := fill_append this l (fillStep this s x)
    exact ⟨u ++ t, by rw [List.foldl_cons, ht, hu, List.append_assoc]⟩

/-- With the constructor's constants the result of `selectExpertsForToken`
starts with the first three semantic experts. -/
theorem selectExpertsForToken_prefix (toLowerCase : JSString → JSString)
    (this : MoEVisualizer) (hs : this.SHARED_EXPERT_INDEX = 0)
    (hr : this.ROUTED_EXPERTS_COUNT = 8) (token : Token) :
    ∃ sem rest, getSemanticExperts toLowerCase this token.text = some sem ∧
      selectExpertsForToken toLowerCase this token = some (sem.take 3 ++ rest) := by
  obtain ⟨prim, t0, t1, x0, x1, _, _, _, _, _, _, _, hsem, _, _, _, hnd, hz⟩ :=
    getSemanticExperts_eq toLowerCase this hs token.text
  obtain ⟨shuffled, hsh, _⟩ := shuffleArray_some (availableExperts this) (simpleHash token.text)
  have hsel := semanticSelection_eq this (prim ++ [x0, x1])
    (fun x hx h => hz (by rw [← hs, ← h]; exact hx))
    (hnd.sublist (List.take_sublist _ _))
  obtain ⟨t, ht⟩ := fill_append this shuffled ((prim ++ [x0, x1]).take 3)
  refine ⟨prim ++ [x0, x1], t.take (8 - ((prim ++ [x0, x1]).take 3).length), hsem, ?_⟩
  simp only [selectExpertsForToken, hsem, hsel, hsh, ht, hr]
  rw [List.take_append_eq_append_take, List.take_of_length_le]
  have : ((prim ++ [x0, x1]).take 3).length ≤ 3 := by
    rw [List.length_take]
    exact Nat.min_le_left _ _
  omega

/-! ## Double arithmetic below `2^53` -/

theorem bitLengthAux_le : ∀ (fuel n k : Nat), n < 2 ^ k → bitLengthAux fuel n ≤ k
  | 0, _, _, _ => Nat.zero_le _
  | fuel + 1, n, k, h => by
    unfold bitLengthAux
    split
    · exact Nat.zero_le _
    · rename_i hn
      cases k with
      | zero =>
        simp at h
        exact absurd h hn
      | succ k =>
        have h2 : n / 2 < 2 ^ k := by
          rw [Nat.div_lt_iff_lt_mul (by decide)]
          rw [pow_succ] at h
          exact h
        exact Nat.succ_le_succ (bitLengthAux_le fuel (n / 2) k h2)

/-- An integer below `2^53` is a double: no rounding takes place. -/
theorem roundToDouble_of_lt (n : Nat) (h : n < 9007199254740992) : roundToDouble n = n := by
  unfold roundToDouble bitLength
  have hle : bitLengthAux n n ≤ 53 := bitLengthAux_le n n 53 (by norm_num; exact h)
  simp [hle]

/-- The update of the seed is exact for a seed below `2^32`. -/
theorem nextSeed_eq (seed : Nat) (h : seed < 4294967296) :
    nextSeed seed = (seed * 1664525 + 1013904223) % 4294967296 := by
  unfold nextSeed toUint32
  rw [roundToDouble_of_lt (seed * 1664525) (by omega),
    roundToDouble_of_lt (seed * 1664525 + 1013904223) (by omega)]

/-- The swap partner is the exact one as long as the exact sum is below `2^53`. -/
theorem swapPartner_eq_exact (seed i : Nat)
    (h : seed * (i + 1) * 1103515245 + 12345 < 9007199254740992) :
    swapPartner seed i = exactSwapPartner seed i := by
  unfold swapPartner exactSwapPartner toUint32
  have h1 : seed * (i + 1) < 9007199254740992 := by
    have : seed * (i + 1) ≤ seed * (i + 1) * 1103515245 := Nat.le_mul_of_pos_right _ (by decide)
    omega
  rw [roundToDouble_of_lt _ h1, roundToDouble_of_lt (seed * (i + 1) * 1103515245) (by omega),
    roundToDouble_of_lt _ h]

/-! ## The patterns -/

theorem startsWith_iff : ∀ (s word : JSString),
    startsWith s word = true ↔ ∃ b, s = word ++ b
  | s, [] => by simp [startsWith]
  | [], w :: word => by simp [startsWith]
  | c :: s, w :: word => by
    simp only [startsWith, Bool.and_eq_true, beq_iff_eq, startsWith_iff s word,
      List.cons_append, List.cons.injEq]
    constructor
    · rintro ⟨h1, b, h2⟩
      exact ⟨b, h1, h2⟩
    · rintro ⟨b, h1, h2⟩
      exact ⟨h1, b, h2⟩

/-- The test of a literal word succeeds exactly on the strings that contain
the word as a run of consecutive code units. -/
theorem includesWord_iff : ∀ (s word : JSString),
    includesWord s word = true ↔ ∃ a b, s = a ++ word ++ b
  | [], word => by
    simp only [includesWord, startsWith_iff]
    constructor
    · rintro ⟨b, h⟩
      exact ⟨[], b, by simpa using h⟩
    · rintro ⟨a, b, h⟩
      have h1 : a ++ word ++ b = [] := h.symm
      simp only [List.append_eq_nil] at h1
      exact ⟨[], by simp [h1.1.2]⟩
  | c :: s, word => by
    simp only [includesWord, Bool.or_eq_true, startsWith_iff, includesWord_iff s word]
    constructor
    · rintro (⟨b, h⟩ | ⟨a, b, h⟩)
      · exact ⟨[], b, by simpa using h⟩
      · exact ⟨c :: a, b, by simp [h]⟩
    · rintro ⟨a, b, h⟩
      cases a with
      | nil => exact Or.inl ⟨b, by simpa using h⟩
      | cons a0 a =>
        simp only [List.cons_append, List.cons.injEq] at h
        exact Or.inr ⟨a, b, h.2⟩

theorem testWords_iff (words : List String) (s : JSString) :
    testWords words s = true ↔ ∃ w ∈ words, ∃ a b, s = a ++ js w ++ b := by
  simp only [testWords, List.any_eq_true, includesWord_iff]

theorem asciiLower_idem (s : JSString) : asciiLower (asciiLower s) = asciiLower s := by
  unfold asciiLower
  rw [List.map_map]
  apply List.map_congr_left
  intro c _
  simp only [Function.comp]
  by_cases h : 65 ≤ c ∧ c ≤ 90
  · have h2 : ¬ (65 ≤ c + 32 ∧ c + 32 ≤ 90) := by omega
    rw [if_pos h, if_neg h2]
  · rw [if_neg h, if_neg h]

/-- The chain of tests of `getSemanticExperts` is the first match among the
ordered rules. -/
theorem primaryType_eq_firstMatch (toLowerCase : JSString → JSString) (text : JSString) :
    primaryType toLowerCase text = firstMatch (toLowerCase text) := by
  unfold primaryType firstMatch classificationRules
  simp only [List.find?_cons]
  cases mathRule (toLowerCase text) <;> cases visionRule (toLowerCase text) <;>
    cases reasoningRule (toLowerCase text) <;> cases codeRule (toLowerCase text) <;>
    cases languageRule (toLowerCase text) <;> rfl

/-! ## The claims on the semantic phase -/

/-- C11, as stated, fails: for the text `the` with the constructor's
constants the semantic phase collects 9, 17, 25, 2, 11, and the result of
`selectExpertsForToken` contains neither 2 nor 11. -/
theorem semanticExperts_not_all_routed :
    getSemanticExperts asciiLower MoEVisualizer.constructed (js "the")
        = some [9, 17, 25, 2, 11] ∧
      selectExpertsForToken asciiLower MoEVisualizer.constructed (tokenOf (js "the"))
        = some [9, 17, 25, 29, 19, 3, 6, 14] ∧
      ¬ 2 ∈ [9, 17, 25, 29, 19, 3, 6, 14] ∧ ¬ 11 ∈ [9, 17, 25, 29, 19, 3, 6, 14] := by
  decide

/-- C11, amended. With `ROUTED_EXPERTS_COUNT = 8` (and the shared index 0),
for every `EXPERT_COUNT` and every text, each of the first three entries of
`getSemanticExperts(text)` is a member of the result of
`selectExpertsForToken`. -/
theorem selectExpertsForToken_contains_semantic (toLowerCase : JSString → JSString)
    (this : MoEVisualizer) (token : Token) (hs : this.SHARED_EXPERT_INDEX = 0)
    (hr : this.ROUTED_EXPERTS_COUNT = 8) :
    ∃ sem r, getSemanticExperts toLowerCase this token.text = some sem ∧
      selectExpertsForToken toLowerCase this token = some r ∧
      ∀ x ∈ sem.take 3, x ∈ r := by
  obtain ⟨sem, rest, hsem, hres⟩ := selectExpertsForToken_prefix toLowerCase this hs hr token
  exact ⟨sem, sem.take 3 ++ rest, hsem, hres, fun x hx => List.mem_append_left rest hx⟩

theorem selectExpertsForToken_contains_semantic_witness :
    MoEVisualizer.constructed.SHARED_EXPERT_INDEX = 0 ∧
      MoEVisualizer.constructed.ROUTED_EXPERTS_COUNT = 8 ∧
      ∃ sem r, getSemanticExperts asciiLower MoEVisualizer.constructed
          (tokenOf (js "the")).text = some sem ∧
        selectExpertsForToken asciiLower MoEVisualizer.constructed (tokenOf (js "the")) = some r ∧
        ∀ x ∈ sem.take 3, x ∈ r :=
  ⟨rfl, rfl, selectExpertsForToken_contains_semantic asciiLower MoEVisualizer.constructed
    (tokenOf (js "the")) rfl rfl⟩

/-- C12. Classification priority: for every text the primary category is the
one of the first rule, in the order math, vision, reasoning, code, language,
whose pattern matches the lower-cased text: the rules before it do not match,
a digit gives math, and there is no primary category exactly when no rule
matches. Lower-casing being idempotent, a text and its lower-cased form get
the same primary category. -/
theorem primaryType_priority (toLowerCase : JSString → JSString) (text : JSString)
    (hid : ∀ s, toLowerCase (toLowerCase s) = toLowerCase s) :
    primaryType toLowerCase text = firstMatch (toLowerCase text) ∧
      (∀ p, primaryType toLowerCase text = some p →
        ∃ before rule after, classificationRules = before ++ rule :: after ∧
          rule.1 = p ∧ rule.2 (toLowerCase text) = true ∧
          ∀ r ∈ before, r.2 (toLowerCase text) = false) ∧
      (primaryType toLowerCase text = none ↔
        ∀ r ∈ classificationRules, r.2 (toLowerCase text) = false) ∧
      (hasDigit (toLowerCase text) = true → primaryType toLowerCase text = some .math) ∧
      primaryType toLowerCase (toLowerCase text) = primaryType toLowerCase text := by
  refine ⟨primaryType_eq_firstMatch toLowerCase text, ?_, ?_, ?_, ?_⟩
  · intro p hp
    rw [primaryType_eq_firstMatch] at hp
    unfold firstMatch at hp
    obtain ⟨rule, hfind, hrule⟩ := Option.map_eq_some'.mp hp
    obtain ⟨hmatch, before, after, hsplit, hbefore⟩ := List.find?_eq_some.mp hfind
    refine ⟨before, rule, after, hsplit, hrule, hmatch, ?_⟩
    intro r hr
    simpa using hbefore r hr
  · rw [primaryType_eq_firstMatch]
    unfold firstMatch
    rw [Option.map_eq_none', List.find?_eq_none]
    constructor
    · intro h r hr
      simpa using h r hr
    · intro h r hr
      simp [h r hr]
  · intro hd
    simp [primaryType, mathRule, hd]
  · simp only [primaryType, hid]

theorem primaryType_priority_witness :
    (∀ s, asciiLower (asciiLower s) = asciiLower s) ∧
      primaryType asciiLower (js "Look 2 see") = firstMatch (asciiLower (js "Look 2 see")) ∧
      (∀ p, primaryType asciiLower (js "Look 2 see") = some p →
        ∃ before rule after, classificationRules = before ++ rule :: after ∧
          rule.1 = p ∧ rule.2 (asciiLower (js "Look 2 see")) = true ∧
          ∀ r ∈ before, r.2 (asciiLower (js "Look 2 see")) = false) ∧
      (primaryType asciiLower (js "Look 2 see") = none ↔
        ∀ r ∈ classificationRules, r.2 (asciiLower (js "Look 2 see")) = false) ∧
      (hasDigit (asciiLower (js "Look 2 see")) = true →
        primaryType asciiLower (js "Look 2 see") = some .math) ∧
      primaryType asciiLower (asciiLower (js "Look 2 see"))
        = primaryType asciiLower (js "Look 2 see") :=
  ⟨asciiLower_idem, primaryType_priority asciiLower (js "Look 2 see") asciiLower_idem⟩

/-- C13, as stated, fails: `cat` matches none of the math, vision, reasoning
and code rules and is none of the words of the language rule, yet its primary
category is language, because it contains `a`. -/
theorem primaryType_cat :
    mathRule (asciiLower (js "cat")) = false ∧ visionRule (asciiLower (js "cat")) = false ∧
      reasoningRule (asciiLower (js "cat")) = false ∧ codeRule (asciiLower (js "cat")) = false ∧
      primaryType asciiLower (js "cat") = some .language ∧
      ¬ asciiLower (js "cat") ∈ stopWords.map js := by
  decide

/-- C13, amended. For every text that matches none of the math, vision,
reasoning and code rules, the primary category is language if and only if the
lower-cased text contains one of the words the, a, an, is, are, was, were,
and, or as a run of consecutive characters. -/
theorem primaryType_language_iff (toLowerCase : JSString → JSString) (text : JSString)
    (hm : mathRule (toLowerCase text) = false) (hv : visionRule (toLowerCase text) = false)
    (hr : reasoningRule (toLowerCase text) = false) (hc : codeRule (toLowerCase text) = false) :
    primaryType toLowerCase text = some .language ↔
      ∃ w ∈ stopWords, ∃ a b, toLowerCase text = a ++ js w ++ b := by
  have hl : languageRule (toLowerCase text) = true ↔
      ∃ w ∈ stopWords, ∃ a b, toLowerCase text = a ++ js w ++ b := by
    unfold languageRule stopWords
    exact testWords_iff _ _
  rw [← hl]
  simp only [primaryType, hm, hv, hr, hc]
  cases languageRule (toLowerCase text) <;> simp

theorem primaryType_language_iff_witness :
    mathRule (asciiLower (js "cat")) = false ∧ visionRule (asciiLower (js "cat")) = false ∧
      reasoningRule (asciiLower (js "cat")) = false ∧ codeRule (asciiLower (js "cat")) = false ∧
      (primaryType asciiLower (js "cat") = some .language ↔
        ∃ w ∈ stopWords, ∃ a b, asciiLower (js "cat") = a ++ js w ++ b) :=
  ⟨by decide, by decide, by decide, by decide,
    primaryType_language_iff asciiLower (js "cat") (by decide) (by decide) (by decide)
      (by decide)⟩

/-- C14. Primary selection: if the text has the primary category `P`, with
the list `L = expertTypes P` of length `m`, then with `h` the hash of the
text as given (not lower-cased) the first three entries of
`getSemanticExperts(text)` are `L[(h+0) mod m]`, `L[(h+1) mod m]`,
`L[(h+2) mod m]` in this order; they are pairwise distinct and none of them is
skipped as the shared index. -/
theorem getSemanticExperts_primary (toLowerCase : JSString → JSString) (this : MoEVisualizer)
    (text : JSString) (P : ExpertType) (hs : this.SHARED_EXPERT_INDEX = 0)
    (hp : primaryType toLowerCase text = some P) :
    ∃ x0 x1 x2 rest,
      (expertTypes P)[(simpleHash text + 0) % (expertTypes P).length]? = some x0 ∧
      (expertTypes P)[(simpleHash text + 1) % (expertTypes P).length]? = some x1 ∧
      (expertTypes P)[(simpleHash text + 2) % (expertTypes P).length]? = some x2 ∧
      getSemanticExperts toLowerCase this text = some (x0 :: x1 :: x2 :: rest) ∧
      x0 ≠ x1 ∧ x0 ≠ x2 ∧ x1 ≠ x2 := by
  obtain ⟨prim, t0, t1, x0, x1, _, _, hsome, _, _, _, _, hsem, _, _, _, _, _⟩ :=
    getSemanticExperts_eq toLowerCase this hs text
  obtain ⟨a, b, c, ha, hb, hc, hprim, hab, hac, hbc, _, _, _⟩ := hsome P hp
  refine ⟨a, b, c, [x0, x1], ha, hb, hc, ?_, hab, hac, hbc⟩
  rw [hsem, hprim]
  rfl

theorem getSemanticExperts_primary_witness :
    MoEVisualizer.constructed.SHARED_EXPERT_INDEX = 0 ∧
      primaryType asciiLower (js "the") = some .language ∧
      ∃ x0 x1 x2 rest,
        (expertTypes .language)[(simpleHash (js "the") + 0)
          % (expertTypes .language).length]? = some x0 ∧
        (expertTypes .language)[(simpleHash (js "the") + 1)
          % (expertTypes .language).length]? = some x1 ∧
        (expertTypes .language)[(simpleHash (js "the") + 2)
          % (expertTypes .language).length]? = some x2 ∧
        getSemanticExperts asciiLower MoEVisualizer.constructed (js "the")
          = some (x0 :: x1 :: x2 :: rest) ∧
        x0 ≠ x1 ∧ x0 ≠ x2 ∧ x1 ≠ x2 :=
  ⟨rfl, by decide, getSemanticExperts_primary asciiLower MoEVisualizer.constructed (js "the")
    .language rfl (by decide)⟩

/-- C15. Secondary selection: with `h` the hash of the text and `C` the
categories in declaration order without the primary one (7 of them, 8 when
there is no primary category), the entries of `getSemanticExperts(text)`
after the primary picks are exactly the two reads
`expertTypes(C[(h+i) mod |C|])[(h+i+7) mod length]` for `i = 0` then `i = 1`;
they come from two different categories, neither of them the primary one. -/
theorem getSemanticExperts_secondary (toLowerCase : JSString → JSString) (this : MoEVisualizer)
    (text : JSString) (hs : this.SHARED_EXPERT_INDEX = 0) :
    ∃ prim t0 t1 x0 x1,
      primaryExperts this (simpleHash text) (primaryType toLowerCase text) = some prim ∧
      (secondaryTypes (primaryType toLowerCase text))[(simpleHash text + 0)
        % (secondaryTypes (primaryType toLowerCase text)).length]? = some t0 ∧
      (secondaryTypes (primaryType toLowerCase text))[(simpleHash text + 1)
        % (secondaryTypes (primaryType toLowerCase text)).length]? = some t1 ∧
      (expertTypes t0)[(simpleHash text + 0 + 7) % (expertTypes t0).length]? = some x0 ∧
      (expertTypes t1)[(simpleHash text + 1 + 7) % (expertTypes t1).length]? = some x1 ∧
      getSemanticExperts toLowerCase this text = some (prim ++ [x0, x1]) ∧
      t0 ≠ t1 ∧ some t0 ≠ primaryType toLowerCase text ∧
      some t1 ≠ primaryType toLowerCase text ∧
      (primaryType toLowerCase text = none →
        (secondaryTypes (primaryType toLowerCase text)).length = 8) ∧
      (∀ p, primaryType toLowerCase text = some p →
        (secondaryTypes (primaryType toLowerCase text)).length = 7) := by
  obtain ⟨prim, t0, t1, x0, x1, hprim, _, _, ht0, ht1, hx0, hx1, hsem, ht01, hp0, hp1, _, _⟩ :=
    getSemanticExperts_eq toLowerCase this hs text
  refine ⟨prim, t0, t1, x0, x1, hprim, ht0, ht1, hx0, hx1, hsem, ht01, hp0, hp1, ?_, ?_⟩
  · intro h
    rw [h]
    exact secondaryTypes_length_none
  · intro p h
    rw [h]
    exact secondaryTypes_length_some p

theorem getSemanticExperts_secondary_witness :
    MoEVisualizer.constructed.SHARED_EXPERT_INDEX = 0 ∧
      ∃ prim t0 t1 x0 x1,
        primaryExperts MoEVisualizer.constructed (simpleHash (js "the"))
          (primaryType asciiLower (js "the")) = some prim ∧
        (secondaryTypes (primaryType asciiLower (js "the")))[(simpleHash (js "the") + 0)
          % (secondaryTypes (primaryType asciiLower (js "the"))).length]? = some t0 ∧
        (secondaryTypes (primaryType asciiLower (js "the")))[(simpleHash (js "the") + 1)
          % (secondaryTypes (primaryType asciiLower (js "the"))).length]? = some t1 ∧
        (expertTypes t0)[(simpleHash (js "the") + 0 + 7) % (expertTypes t0).length]? = some x0 ∧
        (expertTypes t1)[(simpleHash (js "the") + 1 + 7) % (expertTypes t1).length]? = some x1 ∧
        getSemanticExperts asciiLower MoEVisualizer.constructed (js "the")
          = some (prim ++ [x0, x1]) ∧
        t0 ≠ t1 ∧ some t0 ≠ primaryType asciiLower (js "the") ∧
        some t1 ≠ primaryType asciiLower (js "the") ∧
        (primaryType asciiLower (js "the") = none →
          (secondaryTypes (primaryType asciiLower (js "the"))).length = 8) ∧
        (∀ p, primaryType asciiLower (js "the") = some p →
          (secondaryTypes (primaryType asciiLower (js "the"))).length = 7) :=
  ⟨rfl, getSemanticExperts_secondary asciiLower MoEVisualizer.constructed (js "the") rfl⟩

/-! ## The claims on the shuffle -/

/-- C16, as stated, fails: on the array `[1, 2]` with the seed 744039943 (the
hash of `xyz123`), at position 1 the code swaps with `j = 0`, giving `[2, 1]`,
whereas the formula in exact integer arithmetic gives `j = 1`, which leaves
the array as it is. -/
theorem shuffleArray_not_exact :
    744039943 < 4294967296 ∧ simpleHash (js "xyz123") = 744039943 ∧
      swapPartner 744039943 1 = 0 ∧ exactSwapPartner 744039943 1 = 1 ∧
      shuffleArray [1, 2] 744039943 = some [2, 1] ∧
      swap [1, 2] 1 (exactSwapPartner 744039943 1) = some [1, 2] := by
  decide

/-- C16, amended. For every array and every seed in `[0, 2^32)`, at each
position `i` from `length - 1` down to 1 `shuffleArray` swaps position `i`
with `j = (D mod 2^32) mod (i + 1)`, where `D` is
`seed * (i + 1) * 1103515245 + 12345` computed in double arithmetic (each
product and the sum rounded to the nearest double), which is the exact
integer whenever that integer is below `2^53`; it then replaces the seed by
`(seed * 1664525 + 1013904223) mod 2^32`, computed exactly and again in
`[0, 2^32)`. -/
theorem shuffleArray_step (array : List Nat) (seed : Nat) (hseed : seed < 4294967296) :
    shuffleArray array seed = shuffleLoop (array.length - 1) array seed ∧
      (∀ i, shuffleLoop (i + 1) array seed =
        (swap array (i + 1) (swapPartner seed (i + 1))).bind
          fun array1 => shuffleLoop i array1 (nextSeed seed)) ∧
      (∀ i, swapPartner seed i =
        (roundToDouble (roundToDouble (roundToDouble (seed * (i + 1)) * 1103515245) + 12345)
          % 4294967296) % (i + 1)) ∧
      (∀ i, seed * (i + 1) * 1103515245 + 12345 < 9007199254740992 →
        swapPartner seed i = exactSwapPartner seed i) ∧
      nextSeed seed = (seed * 1664525 + 1013904223) % 4294967296 ∧
      nextSeed seed < 4294967296 := by
  refine ⟨rfl, ?_, fun i => rfl, fun i h => swapPartner_eq_exact seed i h,
    nextSeed_eq seed hseed, ?_⟩
  · intro i
    simp only [shuffleLoop]
    cases swap array (i + 1) (swapPartner seed (i + 1)) <;> rfl
  · rw [nextSeed_eq seed hseed]
    exact Nat.mod_lt _ (by decide)

theorem shuffleArray_step_witness :
    98262 < 4294967296 ∧
      (shuffleArray [1, 2, 3] 98262 = shuffleLoop ([1, 2, 3].length - 1) [1, 2, 3] 98262 ∧
      (∀ i, shuffleLoop (i + 1) [1, 2, 3] 98262 =
        (swap [1, 2, 3] (i + 1) (swapPartner 98262 (i + 1))).bind
          fun array1 => shuffleLoop i array1 (nextSeed 98262)) ∧
      (∀ i, swapPartner 98262 i =
        (roundToDouble (roundToDouble (roundToDouble (98262 * (i + 1)) * 1103515245) + 12345)
          % 4294967296) % (i + 1)) ∧
      (∀ i, 98262 * (i + 1) * 1103515245 + 12345 < 9007199254740992 →
        swapPartner 98262 i = exactSwapPartner 98262 i) ∧
      nextSeed 98262 = (98262 * 1664525 + 1013904223) % 4294967296 ∧
      nextSeed 98262 < 4294967296) :=
  ⟨by decide, shuffleArray_step [1, 2, 3] 98262 (by decide)⟩

/-! ## The scenarios -/

/-- C17. Math scenario: with `EXPERT_COUNT = 32` (and the constants
`ROUTED_EXPERTS_COUNT = 8`, `SHARED_EXPERT_INDEX = 0`), for every text whose
primary category is math the result of `selectExpertsForToken` contains 8, 16
and 24, has 8 elements and does not contain 0. -/
theorem selectExpertsForToken_math (toLowerCase : JSString → JSString)
    (this : MoEVisualizer) (token : Token) (he : this.EXPERT_COUNT = 32)
    (hr : this.ROUTED_EXPERTS_COUNT = 8) (hs : this.SHARED_EXPERT_INDEX = 0)
    (hp : primaryType toLowerCase token.text = some .math) :
    ∃ r, selectExpertsForToken toLowerCase this token = some r ∧
      8 ∈ r ∧ 16 ∈ r ∧ 24 ∈ r ∧ r.length = 8 ∧ ¬ 0 ∈ r := by
  obtain ⟨prim, t0, t1, x0, x1, _, _, hsome, _, _, _, _, hsem, _, _, _, _, _⟩ :=
    getSemanticExperts_eq toLowerCase this hs token.text
  obtain ⟨a, b, c, _, _, _, hprim, hab, hac, hbc, ma, mb, mc⟩ := hsome .math hp
  obtain ⟨sem, rest, hsem2, hres⟩ := selectExpertsForToken_prefix toLowerCase this hs hr token
  have hsemeq : sem = [a, b, c] ++ [x0, x1] := by
    rw [hsem, hprim] at hsem2
    exact (Option.some.inj hsem2).symm
  obtain ⟨r1, hres1, hlen⟩ := selectExpertsForToken_length_full toLowerCase this token
    (by rw [he, hr]; decide)
  obtain ⟨r2, hres2, _, hmem⟩ := selectExpertsForToken_mem toLowerCase this token
  have e1 : r1 = sem.take 3 ++ rest := Option.some.inj (hres1.symm.trans hres)
  have e2 : r2 = sem.take 3 ++ rest := Option.some.inj (hres2.symm.trans hres)
  have htake : sem.take 3 = [a, b, c] := by
    rw [hsemeq]
    rfl
  simp only [expertTypes, List.mem_cons, List.mem_singleton, List.not_mem_nil, or_false]
    at ma mb mc
  have h8 : 8 ∈ [a, b, c] := by
    simp only [List.mem_cons, List.mem_singleton, List.not_mem_nil, or_false]
    omega
  have h16 : 16 ∈ [a, b, c] := by
    simp only [List.mem_cons, List.mem_singleton, List.not_mem_nil, or_false]
    omega
  have h24 : 24 ∈ [a, b, c] := by
    simp only [List.mem_cons, List.mem_singleton, List.not_mem_nil, or_false]
    omega
  refine ⟨sem.take 3 ++ rest, hres, ?_, ?_, ?_, ?_, ?_⟩
  · exact List.mem_append_left _ (htake ▸ h8)
  · exact List.mem_append_left _ (htake ▸ h16)
  · exact List.mem_append_left _ (htake ▸ h24)
  · rw [← e1, hlen, hr]
  · intro h0
    rcases hmem 0 (e2 ▸ h0) with h | h
    · have := h.bounds
      omega
    · have := (mem_availableExperts this 0).mp h
      omega

theorem selectExpertsForToken_math_witness :
    MoEVisualizer.constructed.EXPERT_COUNT = 32 ∧
      MoEVisualizer.constructed.ROUTED_EXPERTS_COUNT = 8 ∧
      MoEVisualizer.constructed.SHARED_EXPERT_INDEX = 0 ∧
      primaryType asciiLower (tokenOf (js "math")).text = some .math ∧
      ∃ r, selectExpertsForToken asciiLower MoEVisualizer.constructed (tokenOf (js "math"))
          = some r ∧
        8 ∈ r ∧ 16 ∈ r ∧ 24 ∈ r ∧ r.length = 8 ∧ ¬ 0 ∈ r :=
  ⟨rfl, rfl, rfl, by decide, selectExpertsForToken_math asciiLower MoEVisualizer.constructed
    (tokenOf (js "math")) rfl rfl rfl (by decide)⟩

/-- C18. Language scenario: with the constants `ROUTED_EXPERTS_COUNT = 8` and
`SHARED_EXPERT_INDEX = 0` (for `EXPERT_COUNT = 32` as for any other), for
every text whose primary category is language the first three entries of the
result of `selectExpertsForToken` are the entries of `[1, 9, 17, 25]` at the
positions `(h + i) mod 4` for `i = 0, 1, 2`, with `h` the hash of the text;
they are pairwise distinct. -/
theorem selectExpertsForToken_language (toLowerCase : JSString → JSString)
    (this : MoEVisualizer) (token : Token)
    (hr : this.ROUTED_EXPERTS_COUNT = 8) (hs : this.SHARED_EXPERT_INDEX = 0)
    (hp : primaryType toLowerCase token.text = some .language) :
    ∃ x0 x1 x2 rest,
      [1, 9, 17, 25][(simpleHash token.text + 0) % 4]? = some x0 ∧
      [1, 9, 17, 25][(simpleHash token.text + 1) % 4]? = some x1 ∧
      [1, 9, 17, 25][(simpleHash token.text + 2) % 4]? = some x2 ∧
      selectExpertsForToken toLowerCase this token = some (x0 :: x1 :: x2 :: rest) ∧
      x0 ≠ x1 ∧ x0 ≠ x2 ∧ x1 ≠ x2 ∧
      x0 ∈ [1, 9, 17, 25] ∧ x1 ∈ [1, 9, 17, 25] ∧ x2 ∈ [1, 9, 17, 25] := by
  obtain ⟨prim, t0, t1, x0, x1, _, _, hsome, _, _, _, _, hsem, _, _, _, _, _⟩ :=
    getSemanticExperts_eq toLowerCase this hs token.text
  obtain ⟨a, b, c, ha, hb, hc, hprim, hab, hac, hbc, ma, mb, mc⟩ := hsome .language hp
  obtain ⟨sem, rest, hsem2, hres⟩ := selectExpertsForToken_prefix toLowerCase this hs hr token
  have hsemeq : sem = [a, b, c] ++ [x0, x1] := by
    rw [hsem, hprim] at hsem2
    exact (Option.some.inj hsem2).symm
  have htake : sem.take 3 = [a, b, c] := by
    rw [hsemeq]
    rfl
  refine ⟨a, b, c, rest, ha, hb, hc, ?_, hab, hac, hbc, ma, mb, mc⟩
  rw [hres, htake]
  rfl

theorem selectExpertsForToken_language_witness :
    MoEVisualizer.constructed.ROUTED_EXPERTS_COUNT = 8 ∧
      MoEVisualizer.constructed.SHARED_EXPERT_INDEX = 0 ∧
      primaryType asciiLower (tokenOf (js "the")).text = some .language ∧
      ∃ x0 x1 x2 rest,
        [1, 9, 17, 25][(simpleHash (tokenOf (js "the")).text + 0) % 4]? = some x0 ∧
        [1, 9, 17, 25][(simpleHash (tokenOf (js "the")).text + 1) % 4]? = some x1 ∧
        [1, 9, 17, 25][(simpleHash (tokenOf (js "the")).text + 2) % 4]? = some x2 ∧
        selectExpertsForToken asciiLower MoEVisualizer.constructed (tokenOf (js "the"))
          = some (x0 :: x1 :: x2 :: rest) ∧
        x0 ≠ x1 ∧ x0 ≠ x2 ∧ x1 ≠ x2 ∧
        x0 ∈ [1, 9, 17, 25] ∧ x1 ∈ [1, 9, 17, 25] ∧ x2 ∈ [1, 9, 17, 25] :=
  ⟨rfl, rfl, by decide, selectExpertsForToken_language asciiLower MoEVisualizer.constructed
    (tokenOf (js "the")) rfl rfl (by decide)⟩

/-- C19. Sensitivity: the hashes of `cat` and `dog` differ; they are 98262
and 99644. -/
theorem simpleHash_cat_ne_dog :
    simpleHash (js "cat") ≠ simpleHash (js "dog") ∧
      simpleHash (js "cat") = 98262 ∧ simpleHash (js "dog") = 99644 := by
  decide

/-- C20. Clamp: for every integer `count`, `setExpertCount(count)` sets
`EXPERT_COUNT` to `min(count, 32)`, which is at most 32, and leaves
`ROUTED_EXPERTS_COUNT`, `SHARED_EXPERT_INDEX`, `FRAMES_PER_TOKEN`,
`MAX_DISPLAYED_TOKENS`, `tokens`, `selectedExperts`, `animationFrame`,
`currentTokenIndex` and `isAnimating` as they were. -/
theorem setExpertCount_clamp (this : MoEVisualizer) (count : Int) :
    (setExpertCount this count).EXPERT_COUNT = min count 32 ∧
      (setExpertCount this count).EXPERT_COUNT ≤ 32 ∧
      (setExpertCount this count).ROUTED_EXPERTS_COUNT = this.ROUTED_EXPERTS_COUNT ∧
      (setExpertCount this count).SHARED_EXPERT_INDEX = this.SHARED_EXPERT_INDEX ∧
      (setExpertCount this count).FRAMES_PER_TOKEN = this.FRAMES_PER_TOKEN ∧
      (setExpertCount this count).MAX_DISPLAYED_TOKENS = this.MAX_DISPLAYED_TOKENS ∧
      (setExpertCount this count).tokens = this.tokens ∧
      (setExpertCount this count).selectedExperts = this.selectedExperts ∧
      (setExpertCount this count).animationFrame = this.animationFrame ∧
      (setExpertCount this count).currentTokenIndex = this.currentTokenIndex ∧
      (setExpertCount this count).isAnimating = this.isAnimating :=
  ⟨rfl, min_le_right count 32, rfl, rfl, rfl, rfl, rfl, rfl, rfl, rfl, rfl⟩

/-! ## The reference definition of the routed list -/

/-- The loop over a duplicate-free list of candidates appends the candidates
outside the set, in their order, until the set is full. -/
theorem fill_eq (this : MoEVisualizer) : ∀ (l s : List Nat), l.Nodup →
    s.length ≤ this.ROUTED_EXPERTS_COUNT →
    l.foldl (fillStep this) s =
      s ++ (l.filter fun y => decide (¬ y ∈ s)).take (this.ROUTED_EXPERTS_COUNT - s.length)
  | [], s, _, _ => by simp
  | x :: l, s, hl, hs => by
    have hxl : ¬ x ∈ l := (List.nodup_cons.mp hl).1
    have hl1 : l.Nodup := (List.nodup_cons.mp hl).2
    simp only [List.foldl_cons]
    by_cases hfull : this.ROUTED_EXPERTS_COUNT ≤ s.length
    · have hx : fillStep this s x = s := by simp [fillStep, hfull]
      have h0 : this.ROUTED_EXPERTS_COUNT - s.length = 0 := by omega
      rw [hx, fill_full this l s hfull, h0]
      simp
    · by_cases hxs : x ∈ s
      · have hx : fillStep this s x = s := by simp [fillStep, hxs]
        rw [hx, fill_eq this l s hl1 hs]
        simp [List.filter_cons, hxs]
      · have hx : fillStep this s x = s ++ [x] := by simp [fillStep, setAdd, hxs, hfull]
        have hlen : (s ++ [x]).length ≤ this.ROUTED_EXPERTS_COUNT := by
          simp only [List.length_append, List.length_singleton]
          omega
        have hfilter : (l.filter fun y => decide (¬ y ∈ s ++ [x])) =
            (l.filter fun y => decide (¬ y ∈ s)) := by
          apply List.filter_congr
          intro y hy
          have hne : y ≠ x := fun h => hxl (h ▸ hy)
          simp [hne]
        obtain ⟨d, hd⟩ : ∃ d, this.ROUTED_EXPERTS_COUNT - s.length = d + 1 :=
          ⟨this.ROUTED_EXPERTS_COUNT - s.length - 1, by omega⟩
        have hd2 : this.ROUTED_EXPERTS_COUNT - (s ++ [x]).length = d := by
          simp only [List.length_append, List.length_singleton]
          omega
        rw [hx, fill_eq this l (s ++ [x]) hl1 hlen, hfilter, hd, hd2]
        simp [List.filter_cons, hxs]

/-- With the constructor's constants `selectExpertsForToken` returns the
reference list, and the final slice removes nothing. -/
theorem selectExpertsForToken_eq_reference (toLowerCase : JSString → JSString)
    (this : MoEVisualizer) (hs : this.SHARED_EXPERT_INDEX = 0)
    (hr : this.ROUTED_EXPERTS_COUNT = 8) (token : Token) :
    ∃ sem shuffled, getSemanticExperts toLowerCase this token.text = some sem ∧
      semanticSelection this sem = some (sem.take 3) ∧
      shuffleArray (availableExperts this) (simpleHash token.text) = some shuffled ∧
      shuffled.Perm (availableExperts this) ∧
      shuffled.foldl (fillStep this) (sem.take 3) = referenceRoute sem shuffled ∧
      (referenceRoute sem shuffled).take 8 = referenceRoute sem shuffled ∧
      selectExpertsForToken toLowerCase this token = some (referenceRoute sem shuffled) := by
  obtain ⟨prim, t0, t1, x0, x1, _, _, _, _, _, _, _, hsem, _, _, _, hnd, hz⟩ :=
    getSemanticExperts_eq toLowerCase this hs token.text
  obtain ⟨shuffled, hsh, hperm⟩ :=
    shuffleArray_some (availableExperts this) (simpleHash token.text)
  have hsel := semanticSelection_eq this (prim ++ [x0, x1])
    (fun x hx h => hz (by rw [← hs, ← h]; exact hx))
    (hnd.sublist (List.take_sublist _ _))
  have hlen3 : ((prim ++ [x0, x1]).take 3).length ≤ 3 := by
    rw [List.length_take]
    exact Nat.min_le_left _ _
  have hshnd : shuffled.Nodup := hperm.nodup_iff.mpr (availableExperts_nodup this)
  have hfill : shuffled.foldl (fillStep this) ((prim ++ [x0, x1]).take 3)
      = referenceRoute (prim ++ [x0, x1]) shuffled := by
    rw [fill_eq this shuffled _ hshnd (by omega), hr]
    rfl
  have hlen8 : (referenceRoute (prim ++ [x0, x1]) shuffled).length ≤ 8 := by
    unfold referenceRoute
    have h2 := List.length_take_le (8 - ((prim ++ [x0, x1]).take 3).length)
      (shuffled.filter fun expert => decide (¬ expert ∈ (prim ++ [x0, x1]).take 3))
    rw [List.length_append]
    omega
  refine ⟨prim ++ [x0, x1], shuffled, hsem, hsel, hsh, hperm, hfill,
    List.take_of_length_le hlen8, ?_⟩
  simp only [selectExpertsForToken, hsem, hsel, hsh, hfill, hr]
  rw [List.take_of_length_le hlen8]

/-! ## The animation, frame by frame -/

theorem selectExpertsForToken_some (toLowerCase : JSString → JSString) (this : MoEVisualizer)
    (token : Token) : ∃ r, selectExpertsForToken toLowerCase this token = some r := by
  obtain ⟨r, hres, _⟩ := selectExpertsForToken_mem toLowerCase this token
  exact ⟨r, hres⟩

/-- The assignment to the current token, for an index inside `tokens`. -/
theorem updateCurrentToken_some (toLowerCase : JSString → JSString) (this : MoEVisualizer)
    (n : Nat) (hn : n < this.tokens.length) (ht : Tracks toLowerCase this) :
    ∃ this1, updateCurrentToken toLowerCase this (n : Int) = some this1 ∧
      this1.currentTokenIndex = n ∧ this1.tokens = this.tokens ∧
      this1.animationFrame = this.animationFrame ∧ this1.isAnimating = this.isAnimating ∧
      this1.EXPERT_COUNT = this.EXPERT_COUNT ∧
      this1.ROUTED_EXPERTS_COUNT = this.ROUTED_EXPERTS_COUNT ∧
      this1.SHARED_EXPERT_INDEX = this.SHARED_EXPERT_INDEX ∧
      this1.FRAMES_PER_TOKEN = this.FRAMES_PER_TOKEN ∧
      this1.MAX_DISPLAYED_TOKENS = this.MAX_DISPLAYED_TOKENS ∧
      (this.currentTokenIndex ≤ n → Tracks toLowerCase this1) := by
  by_cases hsame : n = this.currentTokenIndex
  · refine ⟨this, ?_, hsame.symm, rfl, rfl, rfl, rfl, rfl, rfl, rfl, rfl, fun _ => ht⟩
    simp [updateCurrentToken, hsame]
  · obtain ⟨token, htoken⟩ : ∃ token, this.tokens[n]? = some token :=
      ⟨this.tokens[n], List.getElem?_eq_getElem hn⟩
    obtain ⟨experts, hexperts⟩ := selectExpertsForToken_some toLowerCase
      { this with currentTokenIndex := n } token
    refine ⟨{ this with currentTokenIndex := n, selectedExperts := experts }, ?_, rfl, rfl, rfl,
      rfl, rfl, rfl, rfl, rfl, rfl, ?_⟩
    · have hne : (n : Int) ≠ (this.currentTokenIndex : Int) := by omega
      have hlt : (n : Int) < (this.tokens.length : Int) := by omega
      have hnn : ¬ ((n : Int) < 0) := by omega
      simp only [updateCurrentToken, hne, hlt, hnn, ne_eq, not_false_eq_true, and_self, if_true,
        if_false, Int.toNat_ofNat, htoken, hexperts]
    · intro hle
      right
      refine ⟨by simp only []; omega, token, htoken, ?_⟩
      rw [← hexperts]
      exact selectExpertsForToken_congr toLowerCase _ _ token token rfl rfl rfl rfl

theorem tracks_of_frame (toLowerCase : JSString → JSString) (this : MoEVisualizer) (f : Nat)
    (h : Tracks toLowerCase this) :
    Tracks toLowerCase { this with animationFrame := f } := by
  rcases h with ⟨h0, h1⟩ | ⟨h0, token, h1, h2⟩
  · exact Or.inl ⟨h0, h1⟩
  · refine Or.inr ⟨h0, token, h1, ?_⟩
    rw [← h2]
    exact selectExpertsForToken_congr toLowerCase _ _ token token rfl rfl rfl rfl

/-- One call of `animate()` in an animating state whose frame is not past
the last one: the current token is updated, the frame is rendered and
counted, and the next call is scheduled. -/
theorem animate_running (toLowerCase : JSString → JSString) (this : MoEVisualizer)
    (hanim : this.isAnimating = true) (hfpt : this.FRAMES_PER_TOKEN = 32)
    (hpos : 0 < this.tokens.length)
    (hframe : this.animationFrame ≤ this.tokens.length * 32 + 20)
    (ht : Tracks toLowerCase this) :
    ∃ r, animate toLowerCase this = some r ∧ r.rendered = true ∧ r.scheduled = true ∧
      r.state.isAnimating = true ∧ r.state.animationFrame = this.animationFrame + 1 ∧
      r.state.tokens = this.tokens ∧
      r.state.currentTokenIndex = min (this.animationFrame / 32) (this.tokens.length - 1) ∧
      r.state.EXPERT_COUNT = this.EXPERT_COUNT ∧
      r.state.ROUTED_EXPERTS_COUNT = this.ROUTED_EXPERTS_COUNT ∧
      r.state.SHARED_EXPERT_INDEX = this.SHARED_EXPERT_INDEX ∧
      r.state.FRAMES_PER_TOKEN = 32 ∧
      r.state.MAX_DISPLAYED_TOKENS = this.MAX_DISPLAYED_TOKENS ∧
      (this.currentTokenIndex ≤ min (this.animationFrame / 32) (this.tokens.length - 1) →
        Tracks toLowerCase r.state) := by
  have hidx : min (this.animationFrame / 32) (this.tokens.length - 1) < this.tokens.length := by
    have := Nat.min_le_right (this.animationFrame / 32) (this.tokens.length - 1)
    omega
  have hcast : min ((this.animationFrame / this.FRAMES_PER_TOKEN : Nat) : Int)
      ((this.tokens.length : Int) - 1)
      = ((min (this.animationFrame / 32) (this.tokens.length - 1) : Nat) : Int) := by
    rw [hfpt]
    omega
  obtain ⟨this1, h1, hi, htok, hf, ha, he, hr, hs, hp, hm, htr⟩ :=
    updateCurrentToken_some toLowerCase this _ hidx ht
  refine ⟨{ state := { render this1 with animationFrame := (render this1).animationFrame + 1 },
            rendered := true, scheduled := (render this1).isAnimating }, ?_, rfl, ?_, ?_, ?_, ?_,
    ?_, ?_, ?_, ?_, ?_, ?_, ?_⟩
  · have hnot : ¬ (this.tokens.length * this.FRAMES_PER_TOKEN + 20 < this.animationFrame) := by
      rw [hfpt]
      omega
    simp only [animate, hanim, hnot, if_false, hcast, h1]
    simp
  · simp only [render, ha, hanim]
  · simp only [render, ha, hanim]
  · simp only [render, hf]
  · simp only [render, htok]
  · simp only [render, hi]
  · simp only [render, he]
  · simp only [render, hr]
  · simp only [render, hs]
  · simp only [render, hp, hfpt]
  · simp only [render, hm]
  · intro hle
    exact tracks_of_frame toLowerCase this1 _ (htr hle)

theorem animation_succ (toLowerCase : JSString → JSString) (this : MoEVisualizer)
    (tokens : List Token) (k : Nat) :
    animation toLowerCase this tokens (k + 1) =
      (animation toLowerCase this tokens k).bind (nextFrame toLowerCase) := by
  unfold animation
  cases processTokens toLowerCase this tokens with
  | none => rfl
  | some r =>
    simp only [afterFrames]
    cases afterFrames toLowerCase k r <;> rfl

/-- The call of `animate()` made by `processTokens` renders frame 0. -/
theorem animation_zero (toLowerCase : JSString → JSString) (this : MoEVisualizer)
    (hc : HasConstants this) (tokens : List Token) (hne : tokens ≠ []) :
    ∃ r, animation toLowerCase this tokens 0 = some r ∧
      Running toLowerCase this (tokens.take 21) 0 r := by
  obtain ⟨_, _, hfpt, hmax⟩ := hc
  have hpos : 0 < (tokens.take 21).length := by
    cases tokens with
    | nil => exact absurd rfl hne
    | cons t ts => simp
  obtain ⟨r, hr, h1, h2, h3, h4, h5, h6, h7, h8, h9, h10, h11, h12⟩ :=
    animate_running toLowerCase
      { resetAnimation { this with tokens := tokens.take this.MAX_DISPLAYED_TOKENS } with
        isAnimating := true }
      rfl hfpt (by simpa [resetAnimation, hmax] using hpos)
      (by simp [resetAnimation]) (Or.inl ⟨rfl, rfl⟩)
  refine ⟨r, ?_, h1, h2, h3, ?_, ?_, ?_, h7, h8, h9, h10, ?_, ?_⟩
  · have hlen : ¬ ((resetAnimation
        { this with tokens := tokens.take this.MAX_DISPLAYED_TOKENS }).tokens.length = 0) := by
      simp only [resetAnimation, hmax]
      omega
    simp only [animation, processTokens, startAnimation, hlen, if_false, afterFrames]
    rw [hr]
  · rw [h4]
    rfl
  · rw [h5]
    simp [resetAnimation, hmax]
  · rw [h6]
    simp [resetAnimation, hmax]
  · rw [h11]
    exact hmax
  · apply h12
    simp [resetAnimation]

/-- A rendered frame that is not the last one is followed by the next one. -/
theorem running_succ (toLowerCase : JSString → JSString) (this : MoEVisualizer)
    (stored : List Token) (hpos : 0 < stored.length) (j : Nat) (r : AnimateResult)
    (hrun : Running toLowerCase this stored j r) (hj : j + 1 ≤ stored.length * 32 + 20) :
    ∃ r1, nextFrame toLowerCase r = some r1 ∧ Running toLowerCase this stored (j + 1) r1 := by
  obtain ⟨_, hsch, hanim, hframe, htok, hidx, he, hr, hs, hfpt, hmax, htr⟩ := hrun
  obtain ⟨r1, hr1, h1, h2, h3, h4, h5, h6, h7, h8, h9, h10, h11, h12⟩ :=
    animate_running toLowerCase r.state hanim hfpt (by rw [htok]; exact hpos)
      (by rw [htok, hframe]; exact hj) htr
  refine ⟨r1, ?_, h1, h2, h3, ?_, ?_, ?_, ?_, ?_, ?_, h10, ?_, ?_⟩
  · simp only [nextFrame, hsch, if_true]
    exact hr1
  · rw [h4, hframe]
  · rw [h5, htok]
  · rw [h6, htok, hframe]
  · rw [h7, he]
  · rw [h8, hr]
  · rw [h9, hs]
  · rw [h11, hmax]
  · apply h12
    rw [hidx, htok, hframe]
    have ha : j / 32 ≤ (j + 1) / 32 := Nat.div_le_div_right (Nat.le_succ j)
    omega

/-- Every frame up to the last one, `32 * n + 20` for `n` stored tokens, is
rendered. -/
theorem animation_running (toLowerCase : JSString → JSString) (this : MoEVisualizer)
    (hc : HasConstants this) (tokens : List Token) (hne : tokens ≠ []) :
    ∀ j, j ≤ (tokens.take 21).length * 32 + 20 →
      ∃ r, animation toLowerCase this tokens j = some r ∧
        Running toLowerCase this (tokens.take 21) j r
  | 0, _ => animation_zero toLowerCase this hc tokens hne
  | j + 1, hj => by
    obtain ⟨r, hr, hrun⟩ := animation_running toLowerCase this hc tokens hne j (by omega)
    have hpos : 0 < (tokens.take 21).length := by
      cases tokens with
      | nil => exact absurd rfl hne
      | cons t ts => simp
    obtain ⟨r1, hr1, hrun1⟩ := running_succ toLowerCase this _ hpos j r hrun hj
    exact ⟨r1, by rw [animation_succ, hr]; exact hr1, hrun1⟩

/-- After the last frame the next call of `animate()` clears `isAnimating`,
renders nothing and schedules nothing; nothing changes afterwards. -/
theorem animation_stopped (toLowerCase : JSString → JSString) (this : MoEVisualizer)
    (hc : HasConstants this) (tokens : List Token) (hne : tokens ≠ []) :
    ∃ r, animation toLowerCase this tokens ((tokens.take 21).length * 32 + 20) = some r ∧
      Running toLowerCase this (tokens.take 21) ((tokens.take 21).length * 32 + 20) r ∧
      ∀ k, animation toLowerCase this tokens ((tokens.take 21).length * 32 + 21 + k) =
        some { state := { r.state with isAnimating := false }, rendered := false,
               scheduled := false } := by
  obtain ⟨r, hr, hrun⟩ := animation_running toLowerCase this hc tokens hne
    ((tokens.take 21).length * 32 + 20) (Nat.le_refl _)
  refine ⟨r, hr, hrun, ?_⟩
  obtain ⟨_, hsch, hanim, hframe, htok, _, _, _, _, hfpt, _, _⟩ := hrun
  intro k
  induction k with
  | zero =>
    have e : (tokens.take 21).length * 32 + 21 + 0 = (tokens.take 21).length * 32 + 20 + 1 := by
      omega
    rw [e, animation_succ, hr]
    have hpast : r.state.tokens.length * r.state.FRAMES_PER_TOKEN + 20 < r.state.animationFrame := by
      rw [htok, hfpt, hframe]
      omega
    simp [nextFrame, hsch, animate, hanim, hpast]
  | succ k ih =>
    have e : (tokens.take 21).length * 32 + 21 + (k + 1)
        = (tokens.take 21).length * 32 + 21 + k + 1 := by omega
    rw [e, animation_succ, ih]
    rfl

/-! ## The tokenizer -/

/-- The pieces of the split, put together, are the piece read so far and
the rest without its white space. -/
theorem splitLoop_flatten : ∀ (s : JSString) (inSeparator : Bool) (word : JSString),
    (splitLoop inSeparator word s).flatten = word ++ s.filter fun c => !isWhiteSpace c
  | [], _, word => by simp [splitLoop]
  | c :: rest, inSeparator, word => by
    unfold splitLoop
    by_cases hc : isWhiteSpace c = true
    · cases inSeparator
      · simp [hc, splitLoop_flatten rest true []]
      · simp [hc, splitLoop_flatten rest true word]
    · simp [hc, splitLoop_flatten rest false (word ++ [c])]

theorem splitLoop_no_whiteSpace : ∀ (s : JSString) (inSeparator : Bool) (word : JSString),
    (∀ c ∈ word, isWhiteSpace c = false) →
    ∀ w ∈ splitLoop inSeparator word s, ∀ c ∈ w, isWhiteSpace c = false
  | [], _, word, hword => by
    intro w hw
    simp only [splitLoop, List.mem_singleton] at hw
    rw [hw]
    exact hword
  | c :: rest, inSeparator, word, hword => by
    intro w hw
    unfold splitLoop at hw
    by_cases hc : isWhiteSpace c = true
    · cases inSeparator
      · simp only [hc, if_true, Bool.false_eq_true, if_false, List.mem_cons] at hw
        rcases hw with h | h
        · rw [h]
          exact hword
        · exact splitLoop_no_whiteSpace rest true [] (by simp) w h
      · simp only [hc, if_true] at hw
        exact splitLoop_no_whiteSpace rest true word hword w hw
    · simp only [hc, if_false, Bool.false_eq_true] at hw
      refine splitLoop_no_whiteSpace rest false (word ++ [c]) ?_ w hw
      intro d hd
      rcases List.mem_append.mp hd with h | h
      · exact hword d h
      · rw [List.mem_singleton.mp h]
        simpa using hc

theorem flatten_filter_nonempty : ∀ (l : List JSString),
    (l.filter fun word => decide (0 < word.length)).flatten = l.flatten
  | [] => rfl
  | w :: l => by
    cases w with
    | nil => simp [List.filter_cons, flatten_filter_nonempty l]
    | cons c w => simp [List.filter_cons, flatten_filter_nonempty l]

theorem tokensFrom_text (g : Nat → List Rat) : ∀ (words : List JSString) (idx : Nat),
    (tokensFrom g idx words).map Token.text = words
  | [], _ => rfl
  | w :: words, idx => by simp [tokensFrom, tokensFrom_text g words (idx + 1)]

theorem tokensFrom_getElem? (g : Nat → List Rat) : ∀ (words : List JSString) (idx k : Nat)
    (t : Token), (tokensFrom g idx words)[k]? = some t →
      t.id = idx + k ∧ t.position = idx + k ∧ words[k]? = some t.text
  | [], _, _, _, h => by simp [tokensFrom] at h
  | w :: words, idx, 0, t, h => by
    simp only [tokensFrom, List.getElem?_cons_zero, Option.some.injEq] at h
    subst h
    simp
  | w :: words, idx, k + 1, t, h => by
    simp only [tokensFrom, List.getElem?_cons_succ] at h
    obtain ⟨h1, h2, h3⟩ := tokensFrom_getElem? g words (idx + 1) k t h
    refine ⟨by omega, by omega, ?_⟩
    simpa using h3

/-! ## The like button -/

theorem roundToDoubleInt_of_lt (x : Int) (h0 : 0 ≤ x) (h1 : x < 9007199254740992) :
    roundToDoubleInt x = x := by
  unfold roundToDoubleInt
  rw [if_pos h0, roundToDouble_of_lt x.toNat (by omega)]
  omega

/-- The state of the animation of a non-empty token list at every frame `j`,
with `n` the number of stored tokens and `32 * n + 20` the last frame. -/
theorem animation_index (toLowerCase : JSString → JSString) (this : MoEVisualizer)
    (hc : HasConstants this) (tokens : List Token) (hne : tokens ≠ []) (j : Nat) :
    ∃ r, animation toLowerCase this tokens j = some r ∧
      r.state.tokens = tokens.take 21 ∧
      r.state.currentTokenIndex
        = min (min j ((tokens.take 21).length * 32 + 20) / 32) ((tokens.take 21).length - 1) ∧
      r.state.animationFrame = min (j + 1) ((tokens.take 21).length * 32 + 21) ∧
      (r.state.isAnimating = true ↔ j ≤ (tokens.take 21).length * 32 + 20) ∧
      (r.rendered = true ↔ j ≤ (tokens.take 21).length * 32 + 20) ∧
      (r.scheduled = true ↔ j ≤ (tokens.take 21).length * 32 + 20) ∧
      (j ≤ (tokens.take 21).length * 32 + 20 → Tracks toLowerCase r.state) := by
  by_cases hj : j ≤ (tokens.take 21).length * 32 + 20
  · obtain ⟨r, hr, h1, h2, h3, h4, h5, h6, _, _, _, _, _, h12⟩ :=
      animation_running toLowerCase this hc tokens hne j hj
    refine ⟨r, hr, h5, ?_, ?_, ⟨fun _ => hj, fun _ => h3⟩, ⟨fun _ => hj, fun _ => h1⟩,
      ⟨fun _ => hj, fun _ => h2⟩, fun _ => h12⟩
    · rw [h6, Nat.min_eq_left hj]
    · rw [h4]
      omega
  · obtain ⟨r, _, hrun, hstop⟩ := animation_stopped toLowerCase this hc tokens hne
    obtain ⟨_, _, _, h4, h5, h6, _⟩ := hrun
    obtain ⟨k, hk⟩ : ∃ k, j = (tokens.take 21).length * 32 + 21 + k :=
      ⟨j - ((tokens.take 21).length * 32 + 21), by omega⟩
    refine ⟨{ state := { r.state with isAnimating := false }, rendered := false,
              scheduled := false }, by rw [hk]; exact hstop k, h5, ?_, ?_,
      ⟨(fun h => by cases h), fun h => absurd h hj⟩,
      ⟨(fun h => by cases h), fun h => absurd h hj⟩,
      ⟨(fun h => by cases h), fun h => absurd h hj⟩, fun h => absurd h hj⟩
    · show r.state.currentTokenIndex = _
      have hmin : min j ((tokens.take 21).length * 32 + 20)
          = (tokens.take 21).length * 32 + 20 := Nat.min_eq_right (by omega)
      rw [h6, hmin]
    · show r.state.animationFrame = _
      rw [h4]
      omega

/-- Nothing follows a call of `animate()` that scheduled nothing. -/
theorem afterFrames_idle (toLowerCase : JSString → JSString) (this : MoEVisualizer) :
    ∀ k, afterFrames toLowerCase k { state := this, rendered := false, scheduled := false }
      = some { state := this, rendered := false, scheduled := false }
  | 0 => rfl
  | k + 1 => by
    simp only [afterFrames, afterFrames_idle toLowerCase this k]
    rfl

/-! ## The claims on the tokenizer, the reference list, the shuffle and the hash -/

/-- C21. Tokenizer: for every input string, the texts of the tokens of
`tokenize` are non-empty and free of white space, their concatenation in
order is the input without its white-space characters, and the `k`-th token
(from 0) has `id = position = k`. -/
theorem tokenize_spec (generateRandomEmbedding : Nat → List Rat) (text : JSString) :
    (∀ t ∈ tokenize generateRandomEmbedding text,
      t.text ≠ [] ∧ ∀ c ∈ t.text, isWhiteSpace c = false) ∧
    ((tokenize generateRandomEmbedding text).map Token.text).flatten
      = text.filter (fun c => !isWhiteSpace c) ∧
    (∀ (k : Nat) (t : Token), (tokenize generateRandomEmbedding text)[k]? = some t →
      t.id = k ∧ t.position = k) := by
  have htext := tokensFrom_text generateRandomEmbedding
    ((splitWhiteSpace text).filter fun word => decide (0 < word.length)) 0
  refine ⟨?_, ?_, ?_⟩
  · intro t ht
    have hmem : t.text ∈ (splitWhiteSpace text).filter fun word => decide (0 < word.length) := by
      rw [← htext]
      exact List.mem_map_of_mem Token.text ht
    obtain ⟨hsplit, hlen⟩ := List.mem_filter.mp hmem
    refine ⟨?_, splitLoop_no_whiteSpace text false [] (by simp) t.text hsplit⟩
    intro h
    rw [h] at hlen
    simp at hlen
  · unfold tokenize
    rw [htext, flatten_filter_nonempty]
    unfold splitWhiteSpace
    rw [splitLoop_flatten]
    simp
  · intro k t h
    unfold tokenize at h
    obtain ⟨h1, h2, _⟩ := tokensFrom_getElem? generateRandomEmbedding _ 0 k t h
    omega

/-- C22. Reference definition of the routed list: with the constructor's
constants, for every text and every `EXPERT_COUNT`, `selectExpertsForToken`
returns `S ++ F`, where `S` is the first three (or fewer) entries of
`getSemanticExperts(text)` in order and `F` the first `8 - |S|` entries, in
shuffled order, of the shuffle of `[1, ..., EXPERT_COUNT - 1]` seeded by the
hash that are not in `S`; the final `slice(0, 8)` removes nothing. -/
theorem selectExpertsForToken_reference (toLowerCase : JSString → JSString)
    (this : MoEVisualizer) (token : Token) (hs : this.SHARED_EXPERT_INDEX = 0)
    (hr : this.ROUTED_EXPERTS_COUNT = 8) :
    ∃ sem shuffled, getSemanticExperts toLowerCase this token.text = some sem ∧
      shuffleArray (List.range' 1 (this.EXPERT_COUNT.toNat - 1)) (simpleHash token.text)
        = some shuffled ∧
      selectExpertsForToken toLowerCase this token = some (referenceRoute sem shuffled) ∧
      referenceRoute sem shuffled = sem.take 3 ++
        (shuffled.filter fun expert => decide (¬ expert ∈ sem.take 3)).take
          (8 - (sem.take 3).length) ∧
      (sem.take 3).length = min 3 sem.length ∧
      shuffled.foldl (fillStep this) (sem.take 3) = referenceRoute sem shuffled ∧
      (referenceRoute sem shuffled).take 8 = referenceRoute sem shuffled := by
  obtain ⟨sem, shuffled, hsem, _, hsh, _, hfill, htake, hres⟩ :=
    selectExpertsForToken_eq_reference toLowerCase this hs hr token
  exact ⟨sem, shuffled, hsem, hsh, hres, rfl, List.length_take 3 sem, hfill, htake⟩

theorem selectExpertsForToken_reference_witness :
    fourExperts.SHARED_EXPERT_INDEX = 0 ∧ fourExperts.ROUTED_EXPERTS_COUNT = 8 ∧
      ∃ sem shuffled,
        getSemanticExperts asciiLower fourExperts (tokenOf (js "xyz123")).text = some sem ∧
        shuffleArray (List.range' 1 (fourExperts.EXPERT_COUNT.toNat - 1))
          (simpleHash (tokenOf (js "xyz123")).text) = some shuffled ∧
        selectExpertsForToken asciiLower fourExperts (tokenOf (js "xyz123"))
          = some (referenceRoute sem shuffled) ∧
        referenceRoute sem shuffled = sem.take 3 ++
          (shuffled.filter fun expert => decide (¬ expert ∈ sem.take 3)).take
            (8 - (sem.take 3).length) ∧
        (sem.take 3).length = min 3 sem.length ∧
        shuffled.foldl (fillStep fourExperts) (sem.take 3) = referenceRoute sem shuffled ∧
        (referenceRoute sem shuffled).take 8 = referenceRoute sem shuffled :=
  ⟨rfl, rfl, selectExpertsForToken_reference asciiLower fourExperts (tokenOf (js "xyz123"))
    rfl rfl⟩

/-- C23. The shuffle is a permutation: for every array and every seed,
`shuffleArray` returns; the array it leaves has the same length and the same
elements with the same multiplicities; every swap partner `j` is at most
`i`. Hence the candidates walked by `selectExpertsForToken` are the numbers
from 1 to `EXPERT_COUNT - 1`, each exactly once. -/
theorem shuffleArray_permutation (array : List Nat) (seed : Nat) (this : MoEVisualizer)
    (text : JSString) :
    (∃ shuffled, shuffleArray array seed = some shuffled ∧ shuffled.length = array.length ∧
      shuffled.Perm array ∧ ∀ x, shuffled.count x = array.count x) ∧
    (∀ s i, swapPartner s i ≤ i) ∧
    ∃ candidates, shuffleArray (availableExperts this) (simpleHash text) = some candidates ∧
      candidates.Nodup ∧
      ∀ x, x ∈ candidates ↔ 1 ≤ x ∧ (x : Int) < this.EXPERT_COUNT := by
  obtain ⟨shuffled, h1, hperm⟩ := shuffleArray_some array seed
  obtain ⟨candidates, h2, hperm2⟩ := shuffleArray_some (availableExperts this) (simpleHash text)
  refine ⟨⟨shuffled, h1, hperm.length_eq, hperm, fun x => hperm.count_eq x⟩, swapPartner_le,
    candidates, h2, hperm2.nodup_iff.mpr (availableExperts_nodup this), ?_⟩
  intro x
  rw [hperm2.mem_iff]
  exact mem_availableExperts this x

/-- C24. Size of the semantic list: with the shared index 0, for every text
`getSemanticExperts(text)` returns a duplicate-free list without 0, of length
5 when the text has a primary category and of length 2 when it has none; no
pick is rejected, the lists of different categories having no expert in
common. -/
theorem getSemanticExperts_size (toLowerCase : JSString → JSString) (this : MoEVisualizer)
    (text : JSString) (hs : this.SHARED_EXPERT_INDEX = 0) :
    ∃ sem, getSemanticExperts toLowerCase this text = some sem ∧ sem.Nodup ∧ ¬ 0 ∈ sem ∧
      (primaryType toLowerCase text = none → sem.length = 2) ∧
      (∀ p, primaryType toLowerCase text = some p → sem.length = 5) ∧
      (∀ t u x, t ≠ u → x ∈ expertTypes t → ¬ x ∈ expertTypes u) := by
  obtain ⟨prim, t0, t1, x0, x1, _, hnone, hsome, _, _, _, _, hsem, _, _, _, hnd, hz⟩ :=
    getSemanticExperts_eq toLowerCase this hs text
  refine ⟨prim ++ [x0, x1], hsem, hnd, hz, ?_, ?_,
    fun t u x htu ht hu => expertTypes_disjoint t u x htu ht hu⟩
  · intro h
    rw [hnone h]
    rfl
  · intro p h
    obtain ⟨a, b, c, _, _, _, hprim, _⟩ := hsome p h
    rw [hprim]
    rfl

theorem getSemanticExperts_size_witness :
    MoEVisualizer.constructed.SHARED_EXPERT_INDEX = 0 ∧
      ∃ sem, getSemanticExperts asciiLower MoEVisualizer.constructed (js "the") = some sem ∧
        sem.Nodup ∧ ¬ 0 ∈ sem ∧
        (primaryType asciiLower (js "the") = none → sem.length = 2) ∧
        (∀ p, primaryType asciiLower (js "the") = some p → sem.length = 5) ∧
        (∀ t u x, t ≠ u → x ∈ expertTypes t → ¬ x ∈ expertTypes u) :=
  ⟨rfl, getSemanticExperts_size asciiLower MoEVisualizer.constructed (js "the") rfl⟩

/-- C25. Hash range: for every string `simpleHash` is between 0 and `2^31`,
it is `2^31` exactly when the wrapped signed hash is `-2^31`, and it is
below `2^32`, so that it is a seed of the shuffle. -/
theorem simpleHash_range (s : JSString) :
    0 ≤ simpleHash s ∧ simpleHash s ≤ 2147483648 ∧
      (simpleHash s = 2147483648 ↔ simpleHashLoop 0 s = -2147483648) ∧
      simpleHashLoop 0 s = toInt32 (hashPolynomial s) ∧
      simpleHash s < 4294967296 := by
  have hb := simpleHashLoop_bounds s 0 (by decide) (by decide)
  have hle : simpleHash s ≤ 2147483648 := by
    unfold simpleHash
    omega
  refine ⟨Nat.zero_le _, hle, ?_, simpleHashLoop_eq s, by omega⟩
  unfold simpleHash
  omega

/-! ## The claims on the animation and on the like button -/

/-- What the held routing result is during the animation of a non-empty
token list: empty as long as the first token is the current one, the routing
of the current token from the second token on. -/
theorem animation_tracks (toLowerCase : JSString → JSString) (this : MoEVisualizer)
    (hc : HasConstants this) (tokens : List Token) (hne : tokens ≠ []) (j : Nat)
    (hj : j ≤ (tokens.take 21).length * 32 + 20) :
    ∃ r, animation toLowerCase this tokens j = some r ∧ r.state.isAnimating = true ∧
      (j < 32 → r.state.currentTokenIndex = 0 ∧ r.state.selectedExperts = []) ∧
      (r.state.currentTokenIndex ≠ 0 →
        ∃ token, r.state.tokens[r.state.currentTokenIndex]? = some token ∧
          selectExpertsForToken toLowerCase r.state token = some r.state.selectedExperts) := by
  obtain ⟨r, hr, _, hidx, _, hanim, _, _, htr⟩ := animation_index toLowerCase this hc tokens hne j
  refine ⟨r, hr, hanim.mpr hj, ?_, ?_⟩
  · intro hlt
    have h0 : r.state.currentTokenIndex = 0 := by
      rw [hidx, Nat.min_eq_left hj, Nat.div_eq_of_lt hlt]
      exact Nat.zero_min _
    rcases htr hj with h | h
    · exact h
    · exact absurd h0 h.1
  · intro hne0
    rcases htr hj with h | h
    · exact absurd h.1 hne0
    · exact h.2

/-- C26, at the token list `[math]` with the constructor's state: after
`processTokens` the animation is running on the first token and the held
`selectedExperts` is empty, whereas `selectExpertsForToken` of that token is
`[8, 16, 24, 3, 15, 2, 29, 25]`; it is still empty five frames later. -/
theorem animation_first_token_unrouted :
    (animation asciiLower MoEVisualizer.constructed [tokenOf (js "math")] 0).map
        (fun r => (r.state.isAnimating, r.state.currentTokenIndex, r.state.selectedExperts))
        = some (true, 0, []) ∧
      (animation asciiLower MoEVisualizer.constructed [tokenOf (js "math")] 5).map
        (fun r => (r.state.isAnimating, r.state.currentTokenIndex, r.state.selectedExperts))
        = some (true, 0, []) ∧
      selectExpertsForToken asciiLower MoEVisualizer.constructed (tokenOf (js "math"))
        = some [8, 16, 24, 3, 15, 2, 29, 25] := by
  decide

/-- C27. Current-token invariant: at every frame of the animation started
by `processTokens` on a non-empty token list, `currentTokenIndex` is at most
`tokens.length - 1`, so that `tokens[currentTokenIndex]` is defined and the
test `currentTokenIndex >= tokens.length` of `drawProcessingIndicator` fails;
from one frame to the next `currentTokenIndex` does not decrease. -/
theorem animation_currentTokenIndex (toLowerCase : JSString → JSString) (this : MoEVisualizer)
    (hc : HasConstants this) (tokens : List Token) (hne : tokens ≠ []) (j : Nat) :
    ∃ r r1, animation toLowerCase this tokens j = some r ∧
      animation toLowerCase this tokens (j + 1) = some r1 ∧
      r.state.currentTokenIndex ≤ r.state.tokens.length - 1 ∧
      (∃ token, r.state.tokens[r.state.currentTokenIndex]? = some token) ∧
      ¬ r.state.tokens.length ≤ r.state.currentTokenIndex ∧
      r.state.currentTokenIndex ≤ r1.state.currentTokenIndex := by
  obtain ⟨r, hr, htok, hidx, _⟩ := animation_index toLowerCase this hc tokens hne j
  obtain ⟨r1, hr1, _, hidx1, _⟩ := animation_index toLowerCase this hc tokens hne (j + 1)
  have hpos : 0 < (tokens.take 21).length := by
    cases tokens with
    | nil => exact absurd rfl hne
    | cons t ts => simp
  have hle : r.state.currentTokenIndex ≤ (tokens.take 21).length - 1 := by
    rw [hidx]
    exact Nat.min_le_right _ _
  have hlt : r.state.currentTokenIndex < r.state.tokens.length := by
    rw [htok]
    omega
  refine ⟨r, r1, hr, hr1, by rw [htok]; exact hle,
    ⟨r.state.tokens[r.state.currentTokenIndex], List.getElem?_eq_getElem hlt⟩, by omega, ?_⟩
  rw [hidx, hidx1]
  have hdiv : min j ((tokens.take 21).length * 32 + 20) / 32
      ≤ min (j + 1) ((tokens.take 21).length * 32 + 20) / 32 := by
    apply Nat.div_le_div_right
    omega
  omega

theorem animation_currentTokenIndex_witness :
    HasConstants MoEVisualizer.constructed ∧ [tokenOf (js "math"), tokenOf (js "the")] ≠ [] ∧
      ∃ r r1,
        animation asciiLower MoEVisualizer.constructed
          [tokenOf (js "math"), tokenOf (js "the")] 31 = some r ∧
        animation asciiLower MoEVisualizer.constructed
          [tokenOf (js "math"), tokenOf (js "the")] (31 + 1) = some r1 ∧
        r.state.currentTokenIndex ≤ r.state.tokens.length - 1 ∧
        (∃ token, r.state.tokens[r.state.currentTokenIndex]? = some token) ∧
        ¬ r.state.tokens.length ≤ r.state.currentTokenIndex ∧
        r.state.currentTokenIndex ≤ r1.state.currentTokenIndex :=
  ⟨⟨rfl, rfl, rfl, rfl⟩, by simp,
    animation_currentTokenIndex asciiLower MoEVisualizer.constructed ⟨rfl, rfl, rfl, rfl⟩
      [tokenOf (js "math"), tokenOf (js "the")] (by simp) 31⟩

theorem twentyTwoTokens_ne_nil : twentyTwoTokens ≠ [] := by
  intro h
  have hlen := congrArg List.length h
  simp [twentyTwoTokens] at hlen

/-- C28, as stated, fails: for a list of 22 tokens the call of `animate()`
at frame 693 renders nothing and clears `isAnimating`, with `animationFrame`
at 693: only 693 frames were rendered, not `32 * 22 + 21 = 725`. -/
theorem animation_frames_twentyTwoTokens :
    twentyTwoTokens.length = 22 ∧ 693 < 32 * 22 + 21 ∧
      ∃ r, animation asciiLower MoEVisualizer.constructed twentyTwoTokens 693 = some r ∧
        r.rendered = false ∧ r.scheduled = false ∧ r.state.isAnimating = false ∧
        r.state.animationFrame = 693 := by
  obtain ⟨r, hr, _, _, hframe, hanim, hrend, hsch, _⟩ :=
    animation_index asciiLower MoEVisualizer.constructed ⟨rfl, rfl, rfl, rfl⟩ twentyTwoTokens
      twentyTwoTokens_ne_nil 693
  have hlen : (twentyTwoTokens.take 21).length = 21 := by decide
  rw [hlen] at hframe hanim hrend hsch
  refine ⟨by decide, by decide, r, hr, ?_, ?_, ?_, hframe⟩
  · exact Bool.eq_false_iff.mpr fun h => absurd (hrend.mp h) (by decide)
  · exact Bool.eq_false_iff.mpr fun h => absurd (hsch.mp h) (by decide)
  · exact Bool.eq_false_iff.mpr fun h => absurd (hanim.mp h) (by decide)

/-- C28, amended. For a token list of length at least 1, of which
`processTokens` keeps `n = min(length, 21)` tokens, the calls of `animate()`
render exactly the frames `0 .. 32 * n + 20`, each raising `animationFrame`
by one and scheduling the next call; the call after them renders nothing,
clears `isAnimating` and schedules nothing, `animationFrame` staying at
`32 * n + 21`, which it never exceeds. -/
theorem animation_frames (toLowerCase : JSString → JSString) (this : MoEVisualizer)
    (hc : HasConstants this) (tokens : List Token) (hne : tokens ≠ []) (j : Nat) :
    ∃ r, animation toLowerCase this tokens j = some r ∧
      (j ≤ 32 * min tokens.length 21 + 20 →
        r.rendered = true ∧ r.scheduled = true ∧ r.state.isAnimating = true ∧
        r.state.animationFrame = j + 1) ∧
      (32 * min tokens.length 21 + 21 ≤ j →
        r.rendered = false ∧ r.scheduled = false ∧ r.state.isAnimating = false ∧
        r.state.animationFrame = 32 * min tokens.length 21 + 21) ∧
      r.state.animationFrame ≤ 32 * min tokens.length 21 + 21 := by
  obtain ⟨r, hr, _, _, hframe, hanim, hrend, hsch, _⟩ :=
    animation_index toLowerCase this hc tokens hne j
  have hlen : (tokens.take 21).length = min tokens.length 21 := by
    rw [List.length_take, Nat.min_comm]
  rw [hlen] at hframe hanim hrend hsch
  refine ⟨r, hr, ?_, ?_, ?_⟩
  · intro hj
    have hj2 : j ≤ min tokens.length 21 * 32 + 20 := by omega
    exact ⟨hrend.mpr hj2, hsch.mpr hj2, hanim.mpr hj2, by rw [hframe]; omega⟩
  · intro hj
    have hj2 : ¬ j ≤ min tokens.length 21 * 32 + 20 := by omega
    exact ⟨Bool.eq_false_iff.mpr fun h => hj2 (hrend.mp h),
      Bool.eq_false_iff.mpr fun h => hj2 (hsch.mp h),
      Bool.eq_false_iff.mpr fun h => hj2 (hanim.mp h), by rw [hframe]; omega⟩
  · rw [hframe]
    omega

theorem animation_frames_witness :
    HasConstants MoEVisualizer.constructed ∧ twentyTwoTokens ≠ [] ∧
      ∃ r, animation asciiLower MoEVisualizer.constructed twentyTwoTokens 692 = some r ∧
        (692 ≤ 32 * min twentyTwoTokens.length 21 + 20 →
          r.rendered = true ∧ r.scheduled = true ∧ r.state.isAnimating = true ∧
          r.state.animationFrame = 692 + 1) ∧
        (32 * min twentyTwoTokens.length 21 + 21 ≤ 692 →
          r.rendered = false ∧ r.scheduled = false ∧ r.state.isAnimating = false ∧
          r.state.animationFrame = 32 * min twentyTwoTokens.length 21 + 21) ∧
        r.state.animationFrame ≤ 32 * min twentyTwoTokens.length 21 + 21 :=
  ⟨⟨rfl, rfl, rfl, rfl⟩, twentyTwoTokens_ne_nil,
    animation_frames asciiLower MoEVisualizer.constructed ⟨rfl, rfl, rfl, rfl⟩ twentyTwoTokens
      twentyTwoTokens_ne_nil 692⟩

/-- The first call of `animate()`, on a state that was just reset and set
animating: the current token stays the first one, frame 0 is rendered and
counted, and the next call is scheduled. -/
theorem animate_after_reset (toLowerCase : JSString → JSString) (this : MoEVisualizer)
    (stored : List Token) (hne : stored ≠ []) (hfpt : this.FRAMES_PER_TOKEN = 32) :
    animate toLowerCase
        { this with tokens := stored, animationFrame := 0, currentTokenIndex := 0,
                    selectedExperts := [], isAnimating := true }
      = some { state := { this with tokens := stored, animationFrame := 1,
                                    currentTokenIndex := 0, selectedExperts := [],
                                    isAnimating := true },
               rendered := true, scheduled := true } := by
  have hpos : 0 < stored.length := List.length_pos.mpr hne
  have hcast : min (((0 / 32 : Nat) : Nat) : Int) ((stored.length : Int) - 1) = ((0 : Nat) : Int) := by
    omega
  simp only [animate, hfpt, Nat.zero_div, Nat.not_lt_zero, if_false, Bool.true_eq_false]
  rw [hcast]
  simp [updateCurrentToken, render]

/-- C29. Token intake: for every token list `ts`, `processTokens(ts)` returns
with exactly the first `min(|ts|, 21)` tokens of `ts` stored, in their order.
It resets `animationFrame`, `currentTokenIndex` and `selectedExperts`, whatever
they were, before it animates: for a non-empty list its result is that of the
first call of `animate()` on the state with the stored tokens, frame 0, index
0, no selected expert and `isAnimating` set, which renders frame 0; for an
empty list the state is left reset with `isAnimating` false, nothing is
rendered or scheduled, and nothing is at any later frame. -/
theorem processTokens_intake (toLowerCase : JSString → JSString) (this : MoEVisualizer)
    (ts : List Token) (hmax : this.MAX_DISPLAYED_TOKENS = 21)
    (hfpt : this.FRAMES_PER_TOKEN = 32) :
    ∃ r, processTokens toLowerCase this ts = some r ∧
      r.state.tokens = ts.take 21 ∧
      r.state.tokens.length = min ts.length 21 ∧
      (∀ k, k < min ts.length 21 → r.state.tokens[k]? = ts[k]?) ∧
      r.state.currentTokenIndex = 0 ∧ r.state.selectedExperts = [] ∧
      (ts = [] →
        r = { state := { this with tokens := [], animationFrame := 0, currentTokenIndex := 0,
                                   selectedExperts := [], isAnimating := false },
              rendered := false, scheduled := false } ∧
        ∀ k, animation toLowerCase this ts k = some r) ∧
      (ts ≠ [] →
        processTokens toLowerCase this ts =
          animate toLowerCase
            { this with tokens := ts.take 21, animationFrame := 0, currentTokenIndex := 0,
                        selectedExperts := [], isAnimating := true } ∧
        r = { state := { this with tokens := ts.take 21, animationFrame := 1,
                                   currentTokenIndex := 0, selectedExperts := [],
                                   isAnimating := true },
              rendered := true, scheduled := true }) := by
  have hlen : (ts.take 21).length = min ts.length 21 := by
    rw [List.length_take, Nat.min_comm]
  have hget : ∀ k, k < min ts.length 21 → (ts.take 21)[k]? = ts[k]? := by
    intro k hk
    rw [List.getElem?_take]
    simp only [ite_eq_left_iff]
    omega
  by_cases hnil : ts = []
  · subst hnil
    have h0 : processTokens toLowerCase this [] =
        some { state := { this with tokens := [], animationFrame := 0, currentTokenIndex := 0,
                                    selectedExperts := [], isAnimating := false },
               rendered := false, scheduled := false } := by
      simp [processTokens, startAnimation, resetAnimation]
    refine ⟨_, h0, rfl, rfl, hget, rfl, rfl, ?_, fun h => absurd rfl h⟩
    intro _
    refine ⟨rfl, fun k => ?_⟩
    simp only [animation, h0]
    exact afterFrames_idle toLowerCase _ k
  · have hstored : ts.take 21 ≠ [] := by
      cases ts with
      | nil => exact absurd rfl hnil
      | cons t rest => simp
    have hstart : processTokens toLowerCase this ts =
        animate toLowerCase
          { this with tokens := ts.take 21, animationFrame := 0, currentTokenIndex := 0,
                      selectedExperts := [], isAnimating := true } := by
      have hpos : ¬ (ts.take 21).length = 0 := fun h => hstored (List.length_eq_zero.mp h)
      simp only [processTokens, startAnimation, resetAnimation, hmax, hpos, if_false]
    have hfirst := animate_after_reset toLowerCase this (ts.take 21) hstored hfpt
    refine ⟨_, hstart.trans hfirst, rfl, hlen, hget, rfl, rfl, fun h => absurd h hnil,
      fun _ => ⟨hstart, rfl⟩⟩

theorem processTokens_intake_witness :
    busyVisualizer.MAX_DISPLAYED_TOKENS = 21 ∧ busyVisualizer.FRAMES_PER_TOKEN = 32 ∧
      busyVisualizer.animationFrame = 40 ∧ busyVisualizer.currentTokenIndex = 1 ∧
      busyVisualizer.selectedExperts = [3, 5, 7] ∧
      (∃ r, processTokens asciiLower busyVisualizer twentyTwoTokens = some r ∧
        r.state.tokens = twentyTwoTokens.take 21 ∧
        r.state.tokens.length = min twentyTwoTokens.length 21 ∧
        (∀ k, k < min twentyTwoTokens.length 21 → r.state.tokens[k]? = twentyTwoTokens[k]?) ∧
        r.state.currentTokenIndex = 0 ∧ r.state.selectedExperts = [] ∧
        (twentyTwoTokens = [] →
          r = { state := { busyVisualizer with tokens := [], animationFrame := 0,
                                               currentTokenIndex := 0, selectedExperts := [],
                                               isAnimating := false },
                rendered := false, scheduled := false } ∧
          ∀ k, animation asciiLower busyVisualizer twentyTwoTokens k = some r) ∧
        (twentyTwoTokens ≠ [] →
          processTokens asciiLower busyVisualizer twentyTwoTokens =
            animate asciiLower
              { busyVisualizer with tokens := twentyTwoTokens.take 21, animationFrame := 0,
                                    currentTokenIndex := 0, selectedExperts := [],
                                    isAnimating := true } ∧
          r = { state := { busyVisualizer with tokens := twentyTwoTokens.take 21,
                                               animationFrame := 1, currentTokenIndex := 0,
                                               selectedExperts := [], isAnimating := true },
                rendered := true, scheduled := true })) ∧
      (∃ r, processTokens asciiLower busyVisualizer [] = some r ∧
        r.state.tokens = ([] : List Token).take 21 ∧
        r.state.tokens.length = min ([] : List Token).length 21 ∧
        (∀ k, k < min ([] : List Token).length 21 →
          r.state.tokens[k]? = ([] : List Token)[k]?) ∧
        r.state.currentTokenIndex = 0 ∧ r.state.selectedExperts = [] ∧
        (([] : List Token) = [] →
          r = { state := { busyVisualizer with tokens := [], animationFrame := 0,
                                               currentTokenIndex := 0, selectedExperts := [],
                                               isAnimating := false },
                rendered := false, scheduled := false } ∧
          ∀ k, animation asciiLower busyVisualizer [] k = some r) ∧
        (([] : List Token) ≠ [] →
          processTokens asciiLower busyVisualizer [] =
            animate asciiLower
              { busyVisualizer with tokens := ([] : List Token).take 21, animationFrame := 0,
                                    currentTokenIndex := 0, selectedExperts := [],
                                    isAnimating := true } ∧
          r = { state := { busyVisualizer with tokens := ([] : List Token).take 21,
                                               animationFrame := 1, currentTokenIndex := 0,
                                               selectedExperts := [], isAnimating := true },
                rendered := true, scheduled := true })) :=
  ⟨rfl, rfl, rfl, rfl, rfl,
    processTokens_intake asciiLower busyVisualizer twentyTwoTokens rfl rfl,
    processTokens_intake asciiLower busyVisualizer [] rfl rfl⟩

/-- The integers from 0 to `2^53` are doubles. -/
theorem roundToDoubleInt_of_le (x : Int) (h0 : 0 ≤ x) (h1 : x ≤ 9007199254740992) :
    roundToDoubleInt x = x := by
  by_cases hlt : x < 9007199254740992
  · exact roundToDoubleInt_of_lt x h0 hlt
  · have hx : x = 9007199254740992 := by omega
    rw [hx]
    decide

/-- C30, as stated, fails: for a project with `2^53` likes that is not in
`likedProjects`, the first toggle leaves the count at `2^53` (the sum
`2^53 + 1` is not a double) instead of `2^53 + 1`, and the second toggle sets
it to `2^53 - 1`, not back to `2^53`. -/
theorem toggleLike_popularProject :
    popularProject.currentProject.map Project.likes = some (some 9007199254740992) ∧
      ¬ js "Team A" ∈ popularProject.likedProjects ∧
      (toggleLike popularProject).currentProject.map Project.likes
        = some (some 9007199254740992) ∧
      (toggleLike (toggleLike popularProject)).currentProject.map Project.likes
        = some (some 9007199254740991) := by
  decide

/-- C30, amended. For every current project that is not in `likedProjects`
and has a likes count `k` with `0 <= k < 2^53` (or no count, read as 0), two
calls of `toggleLike` in a row restore `likedProjects` and set `likes` back
to `k`; in between `likes` is `k + 1` and the project is in `likedProjects`;
the membership of every other project is unchanged, and `likes` is not
negative after either call. -/
theorem toggleLike_round_trip (project : Project) (likedProjects : List JSString) (k : Int)
    (hk0 : 0 ≤ k) (hk1 : k < 9007199254740992)
    (hlikes : project.likes = some k ∨ (project.likes = none ∧ k = 0))
    (hnew : ¬ project.team ∈ likedProjects) :
    toggleLike { currentProject := some project, likedProjects := likedProjects }
        = { currentProject := some { project with likes := some (k + 1) }
            likedProjects := likedProjects ++ [project.team] } ∧
      project.team ∈ likedProjects ++ [project.team] ∧
      (∀ id, id ≠ project.team → (id ∈ likedProjects ++ [project.team] ↔ id ∈ likedProjects)) ∧
      toggleLike (toggleLike { currentProject := some project, likedProjects := likedProjects })
        = { currentProject := some { project with likes := some k }
            likedProjects := likedProjects } ∧
      0 ≤ k + 1 ∧ 0 ≤ k := by
  have hval : likesOrZero project = k := by
    rcases hlikes with h | ⟨h, h0⟩
    · simp [likesOrZero, h]
    · simp [likesOrZero, h, h0]
  have hfirst : toggleLike { currentProject := some project, likedProjects := likedProjects }
      = { currentProject := some { project with likes := some (k + 1) }
          likedProjects := likedProjects ++ [project.team] } := by
    simp only [toggleLike, hnew, if_false, hval]
    rw [roundToDoubleInt_of_le (k + 1) (by omega) (by omega)]
  refine ⟨hfirst, by simp, ?_, ?_, by omega, hk0⟩
  · intro id hid
    simp [hid]
  · rw [hfirst]
    have hmem : project.team ∈ likedProjects ++ [project.team] := by simp
    have hval2 : likesOrZero { project with likes := some (k + 1) } = k + 1 := rfl
    simp only [toggleLike, hmem, if_true, hval2]
    have hsub : k + 1 - 1 = k := by omega
    rw [hsub, roundToDoubleInt_of_lt k hk0 hk1, max_eq_right hk0,
      List.erase_append_right _ hnew]
    simp

theorem toggleLike_round_trip_witness :
    (0 : Int) ≤ 7 ∧ (7 : Int) < 9007199254740992 ∧
      ((({ team := js "Team A", likes := some 7 } : Project).likes = some 7) ∨
        (({ team := js "Team A", likes := some 7 } : Project).likes = none ∧ (7 : Int) = 0)) ∧
      ¬ ({ team := js "Team A", likes := some 7 } : Project).team ∈ [js "Team B"] ∧
      (toggleLike { currentProject := some { team := js "Team A", likes := some 7 },
                    likedProjects := [js "Team B"] }
        = { currentProject :=
              some { ({ team := js "Team A", likes := some 7 } : Project) with
                likes := some (7 + 1) }
            likedProjects := [js "Team B"] ++
              [({ team := js "Team A", likes := some 7 } : Project).team] } ∧
      ({ team := js "Team A", likes := some 7 } : Project).team ∈
        [js "Team B"] ++ [({ team := js "Team A", likes := some 7 } : Project).team] ∧
      (∀ id, id ≠ ({ team := js "Team A", likes := some 7 } : Project).team →
        (id ∈ [js "Team B"] ++ [({ team := js "Team A", likes := some 7 } : Project).team]
          ↔ id ∈ [js "Team B"])) ∧
      toggleLike (toggleLike { currentProject := some { team := js "Team A", likes := some 7 },
                               likedProjects := [js "Team B"] })
        = { currentProject :=
              some { ({ team := js "Team A", likes := some 7 } : Project) with likes := some 7 }
            likedProjects := [js "Team B"] } ∧
      (0 : Int) ≤ 7 + 1 ∧ (0 : Int) ≤ 7) :=
  ⟨by decide, by decide, Or.inl rfl, by decide,
    toggleLike_round_trip { team := js "Team A", likes := some 7 } [js "Team B"] 7
      (by decide) (by decide) (Or.inl rfl) (by decide)⟩

end MoE
